import Mathlib

/-!
Shallow embedding of the Sudoku solver repository (board.py, solver.py)
and verification of its specified properties.

Boards are `n^2 x n^2` grids of natural numbers, `0` meaning empty.
Python lists become Lean `List`s; the in-place mutations of the search
become explicit state passing.  The statistics counters and the snapshots
handed to the step-observer callback are threaded through a `SState`
record; a few ghost counters (`fcUndos`, `recUndos`, `deadEnds`) and the
list of performed cell writes (`sets`) record, at exactly the code points
where the source mutates state, which path produced each mutation.
-/

namespace Sudoku

/-- `board.py` `SudokuBoard.__init__`: box size `n`, grid `board`. -/
structure SudokuBoard where
  n : Nat
  board : List (List Nat)
deriving DecidableEq, Repr

namespace SudokuBoard

/-- `self.board_size = size * size`. -/
def board_size (b : SudokuBoard) : Nat := b.n * b.n

/-- `SudokuBoard(size)`: all-zero grid of side `size * size`. -/
def empty (size : Nat) : SudokuBoard :=
  { n := size, board := List.replicate (size * size) (List.replicate (size * size) 0) }

/-- `self.board[row][col]` (in-range read; out-of-range reads give 0 here,
the engine only reads in range.  Python negative-index semantics are
modelled separately by `getI`). -/
def get (b : SudokuBoard) (row col : Nat) : Nat :=
  (b.board.getD row []).getD col 0

/-- `self.board[row][col] = value` (in-range write; `List.set` ignores an
out-of-range index, the engine only writes in range). -/
def set (b : SudokuBoard) (row col value : Nat) : SudokuBoard :=
  { b with board := b.board.set row ((b.board.getD row []).set col value) }

/-- `is_empty`: `self.board[row][col] == 0`. -/
def is_empty (b : SudokuBoard) (row col : Nat) : Bool :=
  b.get row col == 0

/-- `get_box_index`: top-left corner of the box containing `(row, col)`. -/
def get_box_index (b : SudokuBoard) (row col : Nat) : Nat × Nat :=
  ((row / b.n) * b.n, (col / b.n) * b.n)

/-- The row list `self.board[row]`. -/
def rowVals (b : SudokuBoard) (row : Nat) : List Nat :=
  b.board.getD row []

/-- The column values `[self.board[r][col] for r in range(board_size)]`. -/
def colVals (b : SudokuBoard) (col : Nat) : List Nat :=
  (List.range b.board_size).map fun r => b.get r col

/-- The values of the box containing `(row, col)`, in the source's
row-by-row iteration order. -/
def boxVals (b : SudokuBoard) (row col : Nat) : List Nat :=
  let br := (b.get_box_index row col).1
  let bc := (b.get_box_index row col).2
  (List.range b.n).flatMap fun i => (List.range b.n).map fun j => b.get (br + i) (bc + j)

/-- `get_candidates`: `{1..side}` minus row, column and box values; empty
set for a non-empty cell.  The Python function subtracts Python sets; the
value set is embedded as the ascending list of members. -/
def get_candidates (b : SudokuBoard) (row col : Nat) : List Nat :=
  if !(b.is_empty row col) then []
  else ((List.range b.board_size).map (· + 1)).filter fun v =>
    !((b.rowVals row).contains v) && !((b.colVals col).contains v)
      && !((b.boxVals row col).contains v)

/-- `is_complete`: every cell nonzero. -/
def is_complete (b : SudokuBoard) : Bool :=
  (List.range b.board_size).all fun r => (List.range b.board_size).all fun c =>
    !(b.get r c == 0)

/-- `len(set(xs))` on a Python list of ints. -/
def pyLenSet (xs : List Nat) : Nat := xs.dedup.length

/-- `is_valid_solution`: complete, and every row, column and box holds
`board_size` distinct values. -/
def is_valid_solution (b : SudokuBoard) : Bool :=
  b.is_complete
    && ((List.range b.board_size).all fun i =>
          (pyLenSet (b.rowVals i) == b.board_size)
            && (pyLenSet (b.colVals i) == b.board_size))
    && ((List.range b.n).all fun bi => (List.range b.n).all fun bj =>
          pyLenSet (b.boxVals (bi * b.n) (bj * b.n)) == b.board_size)

/-- `copy`: a deep value copy (`[row[:] for row in self.board]`). -/
def copy (b : SudokuBoard) : SudokuBoard :=
  { n := b.n, board := b.board.map fun row => row }

/-- Base-36 digit value of an ASCII alphanumeric character, as
`int(c, 36)` computes it. -/
def digit36 (c : Char) : Nat :=
  if c.isDigit then c.toNat - '0'.toNat
  else if 'a' ≤ c ∧ c ≤ 'z' then c.toNat - 'a'.toNat + 10
  else if 'A' ≤ c ∧ c ≤ 'Z' then c.toNat - 'A'.toNat + 10
  else 0

/-- Fragment of Unicode's decimal-digit class (category Nd) sufficient
for this development: the ASCII digits, the Arabic-Indic digits
U+0660..U+0669 and the Devanagari digits U+0966..U+096F.  CPython's
`int(c, base)` accepts any decimal digit of any script with its digit
value. -/
def pyIsDecimalDigit (c : Char) : Bool :=
  c.isDigit || (0x660 ≤ c.toNat && c.toNat ≤ 0x669)
    || (0x966 ≤ c.toNat && c.toNat ≤ 0x96F)

/-- Decimal digit value of a modelled decimal digit. -/
def pyDecimalVal (c : Char) : Nat :=
  if c.isDigit then c.toNat - '0'.toNat
  else if 0x660 ≤ c.toNat && c.toNat ≤ 0x669 then c.toNat - 0x660
  else c.toNat - 0x966

/-- Fragment of the Unicode alphanumerics that `str.isalnum` accepts but
`int(c, 36)` rejects with `ValueError`: the Latin-1 letters
U+00C0..U+00FF minus the operators U+00D7 and U+00F7, and the
superscript digits U+00B9, U+00B2, U+00B3 (digits but not decimal
digits, so `int` refuses them). -/
def pyOtherAlnum (c : Char) : Bool :=
  (0xC0 ≤ c.toNat && c.toNat ≤ 0xFF && !(c.toNat == 0xD7) && !(c.toNat == 0xF7))
    || c.toNat == 0xB9 || c.toNat == 0xB2 || c.toNat == 0xB3

/-- Python's Unicode-aware `str.isalnum` over the modelled fragment:
ASCII alphanumerics, decimal digits of any script, and the other
alphanumerics above. -/
def pyIsAlnum (c : Char) : Bool :=
  c.isAlphanum || pyIsDecimalDigit c || pyOtherAlnum c

/-- CPython's `int(c, 36)` on a single character: an ASCII alphanumeric
carries its base-36 value, a non-ASCII decimal digit its decimal value;
any other character raises `ValueError`. -/
def pyInt36 (c : Char) : Except String Nat :=
  if c.isAlphanum then Except.ok (digit36 c)
  else if pyIsDecimalDigit c then Except.ok (pyDecimalVal c)
  else Except.error "invalid literal for int() with base 36"

/-- `int(puzzle[idx], 36) if puzzle[idx].isalnum() else 0`: the guard is
Python's Unicode `isalnum`, so a non-ASCII alphanumeric reaches
`int(c, 36)` and the call may raise. -/
def decodeChar (c : Char) : Except String Nat :=
  if pyIsAlnum c then pyInt36 c else Except.ok 0

/-- `puzzle.replace(".", "0").replace(" ", "").replace("\n", "")`. -/
def preprocess (s : List Char) : List Char :=
  (s.map fun c => if c == '.' then '0' else c).filter fun c =>
    !(c == ' ') && !(c == '\n')

/-- A character on which the constructor's scan raises: either `int()`
fails, or the decoded value exceeds the side. -/
def charBad (b : SudokuBoard) (c : Char) : Bool :=
  match decodeChar c with
  | Except.error _ => true
  | Except.ok v => b.board_size < v

/-- The constructor's cell loop in source order: decode each character,
reject a decoded value exceeding the side, the first error wins. -/
def decodeRun (b : SudokuBoard) : List Char → Except String (List Nat)
  | [] => Except.ok []
  | c :: rest =>
    match decodeChar c with
    | Except.error e => Except.error e
    | Except.ok v =>
      if b.board_size < v then Except.error "Invalid value for board size"
      else
        match decodeRun b rest with
        | Except.error e => Except.error e
        | Except.ok vs => Except.ok (v :: vs)

/-- `from_string`: strip, length check, then the row-major decoding loop;
on success the decoded values fill the grid row by row. -/
def from_string (b : SudokuBoard) (puzzle : List Char) : Except String SudokuBoard :=
  if (preprocess puzzle).length ≠ b.board_size ^ 2 then
    Except.error "Puzzle must have side*side characters"
  else
    match decodeRun b (preprocess puzzle) with
    | Except.error e => Except.error e
    | Except.ok vals =>
      Except.ok { b with board := (List.range b.board_size).map fun i =>
        (vals.drop (i * b.board_size)).take b.board_size }

/-- Python list indexing: a negative index counts from the end, an index
out of `[-len, len)` raises `IndexError` (modelled as `none`). -/
def pyIndex (len : Nat) (i : Int) : Option Nat :=
  if 0 ≤ (if i < 0 then i + len else i) ∧ (if i < 0 then i + len else i) < len then
    some (if i < 0 then i + len else i).toNat
  else none

/-- `get` with Python `self.board[row][col]` index semantics. -/
def getI (b : SudokuBoard) (row col : Int) : Option Nat :=
  (pyIndex b.board.length row).bind fun r =>
    (pyIndex (b.board.getD r []).length col).map fun c =>
      (b.board.getD r []).getD c 0

/-- `set` with Python index semantics. -/
def setI (b : SudokuBoard) (row col : Int) (value : Nat) : Option SudokuBoard :=
  (pyIndex b.board.length row).bind fun r =>
    (pyIndex (b.board.getD r []).length col).map fun c =>
      { b with board := b.board.set r ((b.board.getD r []).set c value) }

/-- `is_empty` with Python index semantics. -/
def is_emptyI (b : SudokuBoard) (row col : Int) : Option Bool :=
  (getI b row col).map fun v => v == 0

/-- `from_list`: dimension check, then adopt (a copy of) the grid.
Note the source checks only the dimensions, not the cell values. -/
def from_list (b : SudokuBoard) (grid : List (List Nat)) : Except String SudokuBoard :=
  if grid.length ≠ b.board_size ∨ grid.any fun row => row.length ≠ b.board_size then
    Except.error "Board must be board_size x board_size"
  else
    Except.ok { b with board := grid.map fun row => row }

end SudokuBoard

/-- Well-formedness of a board value as built by the constructors: a
positive box size and a `side x side` grid. -/
def WF (b : SudokuBoard) : Prop :=
  0 < b.n ∧ b.board.length = b.board_size ∧
    ∀ row ∈ b.board, row.length = b.board_size

instance : DecidablePred WF := fun b => by
  unfold WF; infer_instance

/-! ## The solver (`solver.py`) -/

/-- The heuristic flags of `SudokuSolver.__init__` that influence the
search (`use_prolog` and the explanation toggle never change the result,
the counters or the mutations; the external validator is advisory only). -/
structure Config where
  use_mrv : Bool
  use_forward_checking : Bool
deriving DecidableEq, Repr

/-- The solver's mutable statistics, the snapshots handed to the
step-observer callback at each node entry, and ghost instrumentation:
`fcUndos` / `recUndos` / `deadEnds` count, at the exact code points, the
forward-checking undo, the failed-recursion undo and the empty-candidate
dead-end return; `sets` logs every `board.set(row, col, value)` call the
search performs on its working board. -/
structure SState where
  nodes_explored : Nat
  backtrack_count : Nat
  fcUndos : Nat
  recUndos : Nat
  deadEnds : Nat
  snaps : List SudokuBoard
  sets : List (Nat × Nat × Nat)
deriving DecidableEq, Repr

/-- Counters as reset at the top of `solve`. -/
def SState.init : SState := ⟨0, 0, 0, 0, 0, [], []⟩

/-- All cell positions in the source's row-major double-loop order. -/
def positions (side : Nat) : List (Nat × Nat) :=
  (List.range side).flatMap fun r => (List.range side).map fun c => (r, c)

/-- The non-MRV branch of `_select_unassigned_variable`: first empty cell
in row-major order. -/
def firstEmpty (b : SudokuBoard) : List (Nat × Nat) → Option (Nat × Nat)
  | [] => none
  | p :: rest => if b.is_empty p.1 p.2 then some p else firstEmpty b rest

/-- The MRV scan of `_select_unassigned_variable`: running
`min_candidates` / `best_cell` state, immediate return on a
zero-candidate empty cell. -/
def mrvLoop (b : SudokuBoard) :
    List (Nat × Nat) → Nat → Option (Nat × Nat) → Option (Nat × Nat)
  | [], _, best => best
  | p :: rest, minc, best =>
    if b.is_empty p.1 p.2 then
      if (b.get_candidates p.1 p.2).length = 0 then some p
      else if (b.get_candidates p.1 p.2).length < minc then
        mrvLoop b rest (b.get_candidates p.1 p.2).length (some p)
      else mrvLoop b rest minc best
    else mrvLoop b rest minc best

/-- `_select_unassigned_variable`. -/
def select_unassigned_variable (cfg : Config) (b : SudokuBoard) :
    Option (Nat × Nat) :=
  if !cfg.use_mrv then firstEmpty b (positions b.board_size)
  else mrvLoop b (positions b.board_size) (b.board_size + 1) none

/-- `_is_consistent`: every empty cell still has a candidate. -/
def is_consistent (b : SudokuBoard) : Bool :=
  (positions b.board_size).all fun p =>
    !(b.is_empty p.1 p.2) || !((b.get_candidates p.1 p.2).length == 0)

/-- `board.set(row, col, num)` in the trial loop: log the write. -/
def logSet (st : SState) (row col num : Nat) : SState :=
  { st with sets := st.sets ++ [(row, col, num)] }

/-- The forward-checking failure path: `board.set(row, col, 0)` and
`self.backtrack_count += 1` (ghost: `fcUndos`). -/
def undoFC (st : SState) (row col : Nat) : SState :=
  { st with
      sets := st.sets ++ [(row, col, 0)]
      backtrack_count := st.backtrack_count + 1
      fcUndos := st.fcUndos + 1 }

/-- The failed-recursion path: `board.set(row, col, 0)` and
`self.backtrack_count += 1` (ghost: `recUndos`). -/
def undoRec (st : SState) (row col : Nat) : SState :=
  { st with
      sets := st.sets ++ [(row, col, 0)]
      backtrack_count := st.backtrack_count + 1
      recUndos := st.recUndos + 1 }

/-- Node entry of `_backtrack`: `self.nodes_explored += 1` and the
step-observer invocation with the current board snapshot. -/
def bumpNode (st : SState) (b : SudokuBoard) : SState :=
  { st with
      nodes_explored := st.nodes_explored + 1
      snaps := st.snaps ++ [b] }

/-- The empty-candidate dead-end return (ghost: `deadEnds`; note the
source increments no counter on this path). -/
def markDeadEnd (st : SState) : SState :=
  { st with deadEnds := st.deadEnds + 1 }

/-- The `for num in candidates` trial loop of `_backtrack`, the recursive
call abstracted as `recur`. -/
def tryCandidates (cfg : Config)
    (recur : SudokuBoard → SState → Option SudokuBoard × SState)
    (b : SudokuBoard) (row col : Nat) :
    List Nat → SState → Option SudokuBoard × SState
  | [], st => (none, st)
  | num :: rest, st =>
    if cfg.use_forward_checking && !(is_consistent (b.set row col num)) then
      tryCandidates cfg recur b row col rest (undoFC (logSet st row col num) row col)
    else
      match recur (b.set row col num) (logSet st row col num) with
      | (some sol, st2) => (some sol, st2)
      | (none, st2) => tryCandidates cfg recur b row col rest (undoRec st2 row col)

/-- `_backtrack`, fuel-indexed (the Python recursion strictly decreases
the number of empty cells, so `solve`'s fuel below is never exhausted). -/
def backtrack (cfg : Config) : Nat → SudokuBoard → SState → Option SudokuBoard × SState
  | 0, _, st => (none, st)
  | fuel + 1, b, st =>
    match select_unassigned_variable cfg b with
    | none =>
      if b.is_valid_solution then (some b, bumpNode st b)
      else (none, bumpNode st b)
    | some (row, col) =>
      if (b.get_candidates row col).length = 0 then
        (none, markDeadEnd (bumpNode st b))
      else
        tryCandidates cfg (backtrack cfg fuel) b row col
          (b.get_candidates row col) (bumpNode st b)

/-- Number of empty cells (the bound on the Python recursion depth). -/
def countEmpty (b : SudokuBoard) : Nat :=
  ((positions b.board_size).filter fun p => b.is_empty p.1 p.2).length

/-- Result of `SudokuSolver.solve`: the success flag, the returned board
(the working copy on success, nothing otherwise), and the statistics. -/
structure SolveResult where
  success : Bool
  solution : Option SudokuBoard
  stats : SState
deriving DecidableEq, Repr

/-- `SudokuSolver.solve`: reset the counters, work on a deep copy, run
the backtracking search. -/
def solve (cfg : Config) (board : SudokuBoard) : SolveResult :=
  match backtrack cfg (countEmpty board.copy + 1) board.copy SState.init with
  | (some sol, st) => ⟨true, some sol, st⟩
  | (none, st) => ⟨false, none, st⟩

/-! ## Concrete boards used by witnesses and counterexamples -/

/-- The unique valid completion of the repository's own 4x4 test puzzle. -/
def solved4 : SudokuBoard :=
  { n := 2, board := [[1,2,3,4],[3,4,1,2],[2,1,4,3],[4,3,2,1]] }

/-- `solved4` with one cell cleared. -/
def oneHole4 : SudokuBoard := solved4.set 1 2 0

/-- A 4x4 board whose cell `(0,3)` is empty with an empty candidate set
(row holds 1,2,3 and the column holds 4): the search dead-ends at once. -/
def deadEnd4 : SudokuBoard :=
  { n := 2, board := [[1,2,3,0],[0,0,0,4],[0,0,0,0],[0,0,0,0]] }

/-- A valid complete 9x9 solution. -/
def solved9 : SudokuBoard :=
  { n := 3, board :=
    [[1,2,3,4,5,6,7,8,9],
     [4,5,6,7,8,9,1,2,3],
     [7,8,9,1,2,3,4,5,6],
     [2,3,4,5,6,7,8,9,1],
     [5,6,7,8,9,1,2,3,4],
     [8,9,1,2,3,4,5,6,7],
     [3,4,5,6,7,8,9,1,2],
     [6,7,8,9,1,2,3,4,5],
     [9,1,2,3,4,5,6,7,8]] }

/-- A 16-character puzzle for a 4x4 board whose first character is the
Latin-1 letter e with acute accent (U+00E9): alphanumeric for Python's
`str.isalnum`, rejected by `int(c, 36)`. -/
def unicodePuzzle : List Char := 'é' :: List.replicate 15 '.'

/-! ## Soundness of the search (C1) -/

/-! ## Further definitions used by the verification
(specifications, invariants, heap model, certificates) -/

/-- The index a Python list access lands on: a negative index counts
from the end. -/
def normIdx (len : Nat) (i : Int) : Nat :=
  (if i < 0 then i + len else i).toNat

/-- `self.board[row][col] = value` on a raw grid. -/
def gridSet (g : List (List Nat)) (row col value : Nat) : List (List Nat) :=
  g.set row ((g.getD row []).set col value)

/-- `board.copy()` at heap level: allocate a fresh slot holding a value
copy of slot `i`; return the new store and the fresh slot's index. -/
def copyAlloc (store : List (List (List Nat))) (i : Nat) :
    List (List (List Nat)) × Nat :=
  (store ++ [(store.getD i []).map fun row => row], store.length)

/-- Replay logged `board.set(row, col, value)` calls on slot `j`. -/
def applySets (store : List (List (List Nat))) (j : Nat) :
    List (Nat × Nat × Nat) → List (List (List Nat))
  | [] => store
  | (r, c, v) :: rest =>
    applySets (store.set j (gridSet (store.getD j []) r c v)) j rest

/-- `solve` at heap level: allocate the private deep copy of slot `i`,
run the search on it, and replay every mutation the search performed on
the copy's slot. -/
def solveOnStore (cfg : Config) (n : Nat) (store : List (List (List Nat)))
    (i : Nat) : List (List (List Nat)) × Bool :=
  match backtrack cfg (countEmpty (SudokuBoard.mk n (store.getD i [])).copy + 1)
      (SudokuBoard.mk n (store.getD i [])).copy SState.init with
  | (some _, st) => (applySets (copyAlloc store i).1 (copyAlloc store i).2 st.sets, true)
  | (none, st) => (applySets (copyAlloc store i).1 (copyAlloc store i).2 st.sets, false)

/-- Two cells share a unit: same row, same column, or same `n x n` box. -/
def SameUnit (n r c r2 c2 : Nat) : Prop :=
  r = r2 ∨ c = c2 ∨ (r / n = r2 / n ∧ c / n = c2 / n)

instance (n r c r2 c2 : Nat) : Decidable (SameUnit n r c r2 c2) := by
  unfold SameUnit; infer_instance

/-- The spec's consistency invariant: no two equal nonzero values share
a row, a column, or a box. -/
def NoDup (b : SudokuBoard) : Prop :=
  ∀ r < b.board_size, ∀ c < b.board_size,
    ∀ r2 < b.board_size, ∀ c2 < b.board_size,
      (r, c) ≠ (r2, c2) → SameUnit b.n r c r2 c2 →
        b.get r c ≠ 0 → b.get r c ≠ b.get r2 c2

instance (b : SudokuBoard) : Decidable (NoDup b) :=
  decidable_of_iff
    (∀ r ∈ List.range b.board_size, ∀ c ∈ List.range b.board_size,
      ∀ r2 ∈ List.range b.board_size, ∀ c2 ∈ List.range b.board_size,
        (r, c) ≠ (r2, c2) → SameUnit b.n r c r2 c2 →
          b.get r c ≠ 0 → b.get r c ≠ b.get r2 c2)
    (by unfold NoDup; simp [List.mem_range])

/-- First-encounter argmin by candidate count over a nonempty list, as
the claim words the tie-break: only a strictly smaller count displaces
the current best. -/
def specArgminAux (b : SudokuBoard) (q : Nat × Nat) :
    List (Nat × Nat) → Nat × Nat
  | [] => q
  | p :: rest =>
    if (b.get_candidates p.1 p.2).length < (b.get_candidates q.1 q.2).length then
      specArgminAux b p rest
    else
      specArgminAux b q rest

/-- The MRV selection as the claim states it: the first empty cell in
row-major order whose candidate count is zero if one exists, otherwise
the empty cell with the smallest candidate count, ties broken in favour
of the cell first encountered in row-major order. -/
def mrvSpec (b : SudokuBoard) : Option (Nat × Nat) :=
  match (positions b.board_size).find? (fun p =>
      b.is_empty p.1 p.2 && ((b.get_candidates p.1 p.2).length == 0)) with
  | some p => some p
  | none =>
    match (positions b.board_size).filter (fun p => b.is_empty p.1 p.2) with
    | [] => none
    | p :: rest => some (specArgminAux b p rest)

/-- Any two distinct cells of a common unit hold distinct values. -/
def unitsDistinct (f : SudokuBoard) : Prop :=
  ∀ r < f.board_size, ∀ c < f.board_size,
    ∀ r2 < f.board_size, ∀ c2 < f.board_size,
      (r, c) ≠ (r2, c2) → SameUnit f.n r c r2 c2 → f.get r c ≠ f.get r2 c2

/-- `f` certifies `b`: a full well-formed board of the same box size
agreeing with `b` on its nonzero cells, filling its empty cells with
in-range values, with all units cell-wise distinct. -/
def Certifies (f b : SudokuBoard) : Prop :=
  f.n = b.n ∧ WF f ∧ f.is_complete = true ∧
    (∀ r < b.board_size, ∀ c < b.board_size,
      b.get r c ≠ 0 → f.get r c = b.get r c) ∧
    (∀ r < b.board_size, ∀ c < b.board_size,
      b.get r c = 0 → 1 ≤ f.get r c ∧ f.get r c ≤ b.board_size) ∧
    unitsDistinct f

/-- The board admits a completion certificate. -/
def Solvable (b : SudokuBoard) : Prop := ∃ f, Certifies f b

theorem tryCandidates_sound (cfg : Config)
    (recur : SudokuBoard → SState → Option SudokuBoard × SState)
    (b : SudokuBoard) (row col : Nat)
    (hrec : ∀ b' st' sol, (recur b' st').1 = some sol →
      sol.is_valid_solution = true) :
    ∀ cands st sol, (tryCandidates cfg recur b row col cands st).1 = some sol →
      sol.is_valid_solution = true := by
  intro cands
  induction cands with
  | nil => intro st sol h; simp [tryCandidates] at h
  | cons num rest ih =>
    intro st sol h
    rw [tryCandidates] at h
    split at h
    · exact ih _ _ h
    · split at h
      next sol2 st2 heq =>
        simp only [Option.some.injEq] at h
        subst h
        exact hrec _ _ _ (by rw [heq])
      next => exact ih _ _ h

theorem backtrack_sound (cfg : Config) :
    ∀ fuel b st sol, (backtrack cfg fuel b st).1 = some sol →
      sol.is_valid_solution = true := by
  intro fuel
  induction fuel with
  | zero => intro b st sol h; simp [backtrack] at h
  | succ fuel ih =>
    intro b st sol h
    rw [backtrack] at h
    split at h
    next =>
      split at h
      next hvalid =>
        simp only [Option.some.injEq] at h
        subst h; exact hvalid
      next => simp at h
    next =>
      split at h
      · simp at h
      · exact tryCandidates_sound cfg _ _ _ _ (fun b' st' sol => ih b' st' sol) _ _ _ h

/-- C1: whenever `solve` reports success, the board it returns satisfies
`is_valid_solution` — complete with every row, column and box holding
each value exactly once. -/
theorem solve_sound (cfg : Config) (b sol : SudokuBoard)
    (h : (solve cfg b).solution = some sol) : sol.is_valid_solution = true := by
  unfold solve at h
  split at h
  next sol2 st heq =>
    simp only [Option.some.injEq] at h
    subst h
    exact backtrack_sound cfg _ _ _ _ (by rw [heq])
  next => simp at h

/-- Witness for C1 at a concrete input: the test suite's solved 4x4 grid
with one cell cleared. -/
theorem solve_sound_witness :
    (solve ⟨true, true⟩ oneHole4).solution = some solved4 ∧
      SudokuBoard.is_valid_solution solved4 = true :=
  ⟨by decide, solve_sound ⟨true, true⟩ oneHole4 solved4 (by decide)⟩

/-! ## Constructors: `from_list` checks only dimensions (C7),
`from_string` and its decoding alphabet (C9) -/

/-- C7 counterexample: a correctly sized 4x4 grid containing 99, which
exceeds the side 4, is accepted by `from_list` without any error. -/
theorem from_list_accepts_out_of_range :
    SudokuBoard.from_list (SudokuBoard.empty 2)
        [[99,2,3,4],[3,4,1,2],[2,1,4,3],[4,3,2,1]] =
      Except.ok { n := 2, board := [[99,2,3,4],[3,4,1,2],[2,1,4,3],[4,3,2,1]] } ∧
    (SudokuBoard.empty 2).board_size < 99 :=
  ⟨rfl, by decide⟩

/-- C7 (amended): `from_list` fails exactly on a mis-dimensioned grid —
wrong number of rows or some row of the wrong length; the cell values are
never inspected, so values exceeding the side are accepted silently. -/
theorem from_list_checks_only_dimensions (b : SudokuBoard)
    (grid : List (List Nat)) :
    (∃ e, SudokuBoard.from_list b grid = Except.error e) ↔
      grid.length ≠ b.board_size ∨ ∃ row ∈ grid, row.length ≠ b.board_size := by
  unfold SudokuBoard.from_list
  split
  next h =>
    simp only [List.any_eq_true, decide_eq_true_eq] at h
    exact ⟨fun _ => h, fun _ => ⟨_, rfl⟩⟩
  next h =>
    simp only [List.any_eq_true, decide_eq_true_eq] at h
    constructor
    · rintro ⟨e, he⟩
      exact absurd he (by simp)
    · intro hr
      exact absurd hr h

theorem decodeRun_error_iff (b : SudokuBoard) :
    ∀ l : List Char, (∃ e, SudokuBoard.decodeRun b l = Except.error e) ↔
      ∃ c ∈ l, SudokuBoard.charBad b c = true := by
  intro l
  induction l with
  | nil => simp [SudokuBoard.decodeRun]
  | cons c rest ih =>
    rw [SudokuBoard.decodeRun]
    cases hd : SudokuBoard.decodeChar c with
    | error e =>
      constructor
      · intro _
        exact ⟨c, List.mem_cons_self c rest, by simp [SudokuBoard.charBad, hd]⟩
      · intro _
        exact ⟨e, rfl⟩
    | ok v =>
      dsimp only
      by_cases hlt : b.board_size < v
      · rw [if_pos hlt]
        constructor
        · intro _
          refine ⟨c, List.mem_cons_self c rest, ?_⟩
          simp only [SudokuBoard.charBad, hd, decide_eq_true_eq]
          exact hlt
        · intro _
          exact ⟨_, rfl⟩
      · rw [if_neg hlt]
        cases hrest : SudokuBoard.decodeRun b rest with
        | error e =>
          constructor
          · intro _
            obtain ⟨c2, hc2, hbad⟩ := ih.mp ⟨e, hrest⟩
            exact ⟨c2, List.mem_cons_of_mem c hc2, hbad⟩
          · intro _
            exact ⟨e, rfl⟩
        | ok vs =>
          constructor
          · rintro ⟨e, he⟩
            exact Except.noConfusion he
          · rintro ⟨c2, hc2, hbad⟩
            rcases List.mem_cons.mp hc2 with rfl | hc2r
            · exfalso
              simp only [SudokuBoard.charBad, hd, decide_eq_true_eq] at hbad
              exact hlt hbad
            · exfalso
              obtain ⟨e, he⟩ := ih.mpr ⟨c2, hc2r, hbad⟩
              rw [hrest] at he
              exact Except.noConfusion he

/-- C9 counterexample: a correctly sized puzzle containing the Unicode
letter e-acute is rejected by `from_string`, because Python's Unicode
`str.isalnum` routes it into `int(c, 36)`, which raises `ValueError` —
a constructor failure that is neither the length check nor the value
range check; moreover a non-ASCII decimal digit (Arabic-Indic three)
decodes to its digit value 3, not to 0. -/
theorem from_string_unicode_counterexample :
    SudokuBoard.pyIsAlnum 'é' = true ∧
    'é'.isAlphanum = false ∧
    (SudokuBoard.preprocess unicodePuzzle).length =
      (SudokuBoard.empty 2).board_size ^ 2 ∧
    SudokuBoard.from_string (SudokuBoard.empty 2) unicodePuzzle =
      Except.error "invalid literal for int() with base 36" ∧
    SudokuBoard.decodeChar '٣' = Except.ok 3 :=
  ⟨by decide, by decide, by decide, rfl, rfl⟩

/-- C9 (amended): `from_string` fails exactly on a wrong post-stripping
length or on some character of the stripped puzzle that either makes
`int(c, 36)` raise `ValueError` (it is alphanumeric for Python's Unicode
`isalnum` without being an ASCII alphanumeric or a decimal digit) or
decodes to a value exceeding the side; every non-alphanumeric character
decodes silently to 0, lowercase ASCII letters carry their base-36 digit
value, non-ASCII decimal digits carry their decimal value, and the
Latin-1 letter e-acute raises. -/
theorem from_string_failure_modes (b : SudokuBoard) (puzzle : List Char) :
    ((∃ e, SudokuBoard.from_string b puzzle = Except.error e) ↔
      (SudokuBoard.preprocess puzzle).length ≠ b.board_size ^ 2 ∨
        ∃ c ∈ SudokuBoard.preprocess puzzle,
          SudokuBoard.charBad b c = true) ∧
    (∀ c : Char, SudokuBoard.pyIsAlnum c = false →
      SudokuBoard.decodeChar c = Except.ok 0) ∧
    SudokuBoard.decodeChar 'a' = Except.ok 10 ∧
    SudokuBoard.decodeChar '٣' = Except.ok 3 ∧
    SudokuBoard.decodeChar 'é' =
      Except.error "invalid literal for int() with base 36" := by
  refine ⟨?_, ?_, rfl, rfl, rfl⟩
  · unfold SudokuBoard.from_string
    split
    next h => exact ⟨fun _ => Or.inl h, fun _ => ⟨_, rfl⟩⟩
    next h =>
      cases hrun : SudokuBoard.decodeRun b (SudokuBoard.preprocess puzzle) with
      | error e =>
        constructor
        · intro _
          exact Or.inr ((decodeRun_error_iff b _).mp ⟨e, hrun⟩)
        · intro _
          exact ⟨e, rfl⟩
      | ok vals =>
        constructor
        · rintro ⟨e, he⟩
          exact Except.noConfusion he
        · rintro (hl | hbad)
          · exact absurd hl h
          · obtain ⟨e, he⟩ := (decodeRun_error_iff b _).mpr hbad
            rw [hrun] at he
            exact Except.noConfusion he
  · intro c hc
    unfold SudokuBoard.decodeChar
    rw [hc]
    rfl

/-- Witness for C9's amended theorem at a concrete character: the hash
sign is not alphanumeric and decodes to the empty cell 0. -/
theorem from_string_failure_modes_witness :
    SudokuBoard.pyIsAlnum '#' = false ∧
      SudokuBoard.decodeChar '#' = Except.ok 0 :=
  ⟨by decide,
    (from_string_failure_modes (SudokuBoard.empty 2) []).2.1 '#' (by decide)⟩

/-! ## Python index semantics of `get` / `set` / `is_empty` (C10) -/

theorem pyIndex_in_range (len : Nat) (i : Int)
    (hlo : -(len : Int) ≤ i) (hhi : i < len) :
    SudokuBoard.pyIndex len i = some (normIdx len i) := by
  unfold SudokuBoard.pyIndex normIdx
  split
  next hneg =>
    rw [if_pos (show 0 ≤ i + (len : Int) ∧ i + (len : Int) < (len : Int) by omega)]
  next hneg =>
    rw [if_pos (show 0 ≤ i ∧ i < (len : Int) by omega)]

theorem pyIndex_oob (len : Nat) (i : Int)
    (h : (len : Int) ≤ i ∨ i < -(len : Int)) :
    SudokuBoard.pyIndex len i = none := by
  unfold SudokuBoard.pyIndex
  split
  next hneg =>
    rw [if_neg (show ¬(0 ≤ i + (len : Int) ∧ i + (len : Int) < (len : Int)) by omega)]
  next hneg =>
    rw [if_neg (show ¬(0 ≤ i ∧ i < (len : Int)) by omega)]

theorem normIdx_lt (len : Nat) (i : Int)
    (hlo : -(len : Int) ≤ i) (hhi : i < len) : normIdx len i < len := by
  unfold normIdx; split <;> omega

theorem WF_row_length (b : SudokuBoard) (h : WF b) (i : Nat)
    (hi : i < b.board_size) : (b.board.getD i []).length = b.board_size := by
  obtain ⟨-, hlen, hrows⟩ := h
  have hil : i < b.board.length := by rw [hlen]; exact hi
  rw [List.getD_eq_getElem _ _ hil]
  exact hrows _ (List.getElem_mem hil)

theorem WF_side_pos (b : SudokuBoard) (h : WF b) : 0 < b.board_size :=
  Nat.mul_pos h.1 h.1

/-- C10: on a well-formed board the cell accessors perform no bounds
check of their own.  A row or column index in `[-side, -1]` silently
reaches the cell counted from the end of the grid (so `get (-1) 0` reads
the bottom-left cell), while an index `≥ side` raises an index error
(`none`). -/
theorem python_index_semantics (b : SudokuBoard) (h : WF b) :
    (∀ r c : Int, -(b.board_size : Int) ≤ r → r < b.board_size →
        -(b.board_size : Int) ≤ c → c < b.board_size →
      SudokuBoard.getI b r c =
          some (b.get (normIdx b.board_size r) (normIdx b.board_size c)) ∧
        (∀ v, SudokuBoard.setI b r c v =
          some (b.set (normIdx b.board_size r) (normIdx b.board_size c) v)) ∧
        SudokuBoard.is_emptyI b r c =
          some (b.is_empty (normIdx b.board_size r) (normIdx b.board_size c))) ∧
    (∀ r c : Int, (b.board_size : Int) ≤ r →
      SudokuBoard.getI b r c = none ∧
        (∀ v, SudokuBoard.setI b r c v = none) ∧
        SudokuBoard.is_emptyI b r c = none) ∧
    (∀ r c : Int, -(b.board_size : Int) ≤ r → r < b.board_size →
        (b.board_size : Int) ≤ c →
      SudokuBoard.getI b r c = none ∧
        (∀ v, SudokuBoard.setI b r c v = none) ∧
        SudokuBoard.is_emptyI b r c = none) := by
  have hL : b.board.length = b.board_size := h.2.1
  refine ⟨?_, ?_, ?_⟩
  · intro r c hr1 hr2 hc1 hc2
    have hrow : SudokuBoard.pyIndex b.board.length r =
        some (normIdx b.board_size r) := by
      rw [hL]; exact pyIndex_in_range b.board_size r hr1 hr2
    have hcol : SudokuBoard.pyIndex
        (b.board.getD (normIdx b.board_size r) []).length c =
          some (normIdx b.board_size c) := by
      rw [WF_row_length b h _ (normIdx_lt _ _ hr1 hr2)]
      exact pyIndex_in_range b.board_size c hc1 hc2
    refine ⟨?_, ?_, ?_⟩
    · unfold SudokuBoard.getI
      rw [hrow, Option.some_bind, hcol, Option.map_some']
      rfl
    · intro v
      unfold SudokuBoard.setI
      rw [hrow, Option.some_bind, hcol, Option.map_some']
      rfl
    · unfold SudokuBoard.is_emptyI SudokuBoard.getI
      rw [hrow, Option.some_bind, hcol, Option.map_some', Option.map_some']
      rfl
  · intro r c hr
    have hrow : SudokuBoard.pyIndex b.board.length r = none := by
      rw [hL]; exact pyIndex_oob b.board_size r (Or.inl hr)
    refine ⟨?_, fun v => ?_, ?_⟩
    · unfold SudokuBoard.getI; rw [hrow]; rfl
    · unfold SudokuBoard.setI; rw [hrow]; rfl
    · unfold SudokuBoard.is_emptyI SudokuBoard.getI; rw [hrow]; rfl
  · intro r c hr1 hr2 hc
    have hrow : SudokuBoard.pyIndex b.board.length r =
        some (normIdx b.board_size r) := by
      rw [hL]; exact pyIndex_in_range b.board_size r hr1 hr2
    have hcol : SudokuBoard.pyIndex
        (b.board.getD (normIdx b.board_size r) []).length c = none := by
      rw [WF_row_length b h _ (normIdx_lt _ _ hr1 hr2)]
      exact pyIndex_oob b.board_size c (Or.inl hc)
    refine ⟨?_, fun v => ?_, ?_⟩
    · unfold SudokuBoard.getI
      rw [hrow, Option.some_bind, hcol]; rfl
    · unfold SudokuBoard.setI
      rw [hrow, Option.some_bind, hcol]; rfl
    · unfold SudokuBoard.is_emptyI SudokuBoard.getI
      rw [hrow, Option.some_bind, hcol]; rfl

/-- Witness for C10: on the concrete solved 4x4 board, `get (-1) 0`
silently reads the bottom-left cell. -/
theorem python_index_semantics_witness :
    WF solved4 ∧
      SudokuBoard.getI solved4 (-1) 0 =
        some (solved4.get (normIdx solved4.board_size (-1))
          (normIdx solved4.board_size 0)) ∧
      SudokuBoard.getI solved4 (-1) 0 = some 4 :=
  ⟨by decide,
    ((python_index_semantics solved4 (by decide)).1 (-1) 0
      (by decide) (by decide) (by decide) (by decide)).1,
    by decide⟩

/-! ## `solve` works on a private deep copy (C8)

Python object identity is modelled by a store of grids indexed by
allocation order: `copy()` allocates a fresh slot (it builds new lists,
`[row[:] for row in self.board]`, instead of aliasing the caller's), and
every `board.set` of the search — replayed here from the `sets` log, in
order — hits only the working slot. -/

theorem applySets_getD_ne (j i : Nat) (hne : i ≠ j) :
    ∀ ops store, (applySets store j ops).getD i [] = store.getD i [] := by
  intro ops
  induction ops with
  | nil => intro store; rfl
  | cons op rest ih =>
    intro store
    obtain ⟨r, c, v⟩ := op
    rw [applySets, ih]
    rw [List.getD_eq_getElem?_getD, List.getElem?_set_ne (fun hji => hne hji.symm),
      ← List.getD_eq_getElem?_getD]

/-- C8: the search mutates only the freshly allocated private copy.
After `solveOnStore` the caller's slot `i` holds exactly the grid it held
before the call, whatever the outcome; moreover the heap-level run
reports the same success flag as `solve` on the board value. -/
theorem solve_mutates_only_copy (cfg : Config) (n : Nat)
    (store : List (List (List Nat))) (i : Nat) (h : i < store.length) :
    (solveOnStore cfg n store i).1.getD i [] = store.getD i [] ∧
      (solveOnStore cfg n store i).2 =
        (solve cfg (SudokuBoard.mk n (store.getD i []))).success := by
  have hne : i ≠ (copyAlloc store i).2 := by
    simp only [copyAlloc]
    omega
  have happ : ((copyAlloc store i).1).getD i [] = store.getD i [] := by
    simp only [copyAlloc]
    rw [List.getD_eq_getElem?_getD, List.getElem?_append_left h,
      ← List.getD_eq_getElem?_getD]
  constructor
  · unfold solveOnStore
    split
    next heq => rw [applySets_getD_ne _ _ hne, happ]
    next heq => rw [applySets_getD_ne _ _ hne, happ]
  · unfold solveOnStore solve
    split
    next => rfl
    next => rfl

/-- Witness for C8: a singleton heap holding the one-hole 4x4 board; its
slot is untouched by the solve. -/
theorem solve_mutates_only_copy_witness :
    0 < [oneHole4.board].length ∧
      (solveOnStore ⟨true, true⟩ 2 [oneHole4.board] 0).1.getD 0 [] =
        [oneHole4.board].getD 0 [] :=
  ⟨by decide,
    (solve_mutates_only_copy ⟨true, true⟩ 2 [oneHole4.board] 0 (by decide)).1⟩

/-! ## Statistics accounting (C6)

The node counter moves in lockstep with the per-call snapshots; the
backtrack counter moves in lockstep with the two undo paths — and with
them only: the empty-candidate dead-end return increments nothing. -/

theorem tryCandidates_counters (cfg : Config)
    (recur : SudokuBoard → SState → Option SudokuBoard × SState)
    (hrec : ∀ b' st',
      ((recur b' st').2.backtrack_count + st'.fcUndos + st'.recUndos =
        st'.backtrack_count + (recur b' st').2.fcUndos + (recur b' st').2.recUndos) ∧
      ((recur b' st').2.nodes_explored + st'.snaps.length =
        st'.nodes_explored + (recur b' st').2.snaps.length))
    (b : SudokuBoard) (row col : Nat) :
    ∀ cands st,
      ((tryCandidates cfg recur b row col cands st).2.backtrack_count +
          st.fcUndos + st.recUndos =
        st.backtrack_count + (tryCandidates cfg recur b row col cands st).2.fcUndos +
          (tryCandidates cfg recur b row col cands st).2.recUndos) ∧
      ((tryCandidates cfg recur b row col cands st).2.nodes_explored +
          st.snaps.length =
        st.nodes_explored +
          (tryCandidates cfg recur b row col cands st).2.snaps.length) := by
  intro cands
  induction cands with
  | nil => intro st; exact ⟨rfl, rfl⟩
  | cons num rest ih =>
    intro st
    rw [tryCandidates]
    split
    · have h := ih (undoFC (logSet st row col num) row col)
      simp only [undoFC, logSet] at h ⊢
      omega
    · split
      next sol2 st2 heq =>
        have h := hrec (b.set row col num) (logSet st row col num)
        rw [heq] at h
        simp only [logSet] at h ⊢
        omega
      next st2 heq =>
        have h := hrec (b.set row col num) (logSet st row col num)
        rw [heq] at h
        have h2 := ih (undoRec st2 row col)
        simp only [undoRec, logSet] at h h2 ⊢
        omega

theorem backtrack_counters (cfg : Config) :
    ∀ fuel b st,
      ((backtrack cfg fuel b st).2.backtrack_count + st.fcUndos + st.recUndos =
        st.backtrack_count + (backtrack cfg fuel b st).2.fcUndos +
          (backtrack cfg fuel b st).2.recUndos) ∧
      ((backtrack cfg fuel b st).2.nodes_explored + st.snaps.length =
        st.nodes_explored + (backtrack cfg fuel b st).2.snaps.length) := by
  intro fuel
  induction fuel with
  | zero => intro b st; exact ⟨rfl, rfl⟩
  | succ fuel ih =>
    intro b st
    rw [backtrack]
    split
    next =>
      split
      · dsimp only
        simp only [bumpNode, List.length_append, List.length_singleton]
        constructor <;> first
        | trivial
        | omega
      · dsimp only
        simp only [bumpNode, List.length_append, List.length_singleton]
        constructor <;> first
        | trivial
        | omega
    next row col heq2 =>
      split
      · dsimp only
        simp only [markDeadEnd, bumpNode, List.length_append, List.length_singleton]
        constructor <;> first
        | trivial
        | omega
      · have h := tryCandidates_counters cfg (backtrack cfg fuel)
          (fun b' st' => ih b' st') b row col (b.get_candidates row col) (bumpNode st b)
        simp only [bumpNode, List.length_append, List.length_singleton] at h ⊢
        constructor <;> first
        | trivial
        | omega

/-- C6 (amended): over a whole `solve` call the node counter equals the
number of recursive `_backtrack` entries (one snapshot is taken per
entry), and the backtrack counter equals the number of undone trial
assignments — the forward-checking-failure undo path plus the
failed-recursion undo path.  The dead-end path where the selected cell
has an empty candidate set undoes no assignment and increments nothing. -/
theorem solve_statistics_contract (cfg : Config) (b : SudokuBoard) :
    (solve cfg b).stats.nodes_explored = (solve cfg b).stats.snaps.length ∧
    (solve cfg b).stats.backtrack_count =
      (solve cfg b).stats.fcUndos + (solve cfg b).stats.recUndos := by
  have h := backtrack_counters cfg (countEmpty b.copy + 1) b.copy SState.init
  unfold solve
  split
  next heq =>
    rw [heq] at h
    simp only [SState.init, List.length_nil] at h
    dsimp only
    omega
  next heq =>
    rw [heq] at h
    simp only [SState.init, List.length_nil] at h
    dsimp only
    omega

/-! ## The consistency invariant (C2) -/

theorem rowGetD_set_ne (row : List Nat) (c c2 v : Nat) (h : c ≠ c2) :
    (row.set c v).getD c2 0 = row.getD c2 0 := by
  rw [List.getD_eq_getElem?_getD, List.getElem?_set_ne h,
    ← List.getD_eq_getElem?_getD]

theorem get_set_ne (b : SudokuBoard) (r c v r2 c2 : Nat)
    (hne : (r, c) ≠ (r2, c2)) : (b.set r c v).get r2 c2 = b.get r2 c2 := by
  unfold SudokuBoard.get SudokuBoard.set
  by_cases hr : r = r2
  · subst hr
    have hc : c ≠ c2 := fun h => hne (by rw [h])
    by_cases hlen : r < b.board.length
    · have h1 : (b.board.set r ((b.board.getD r []).set c v)).getD r [] =
          (b.board.getD r []).set c v := by
        rw [List.getD_eq_getElem?_getD, List.getElem?_set_self hlen,
          Option.getD_some]
      rw [h1]
      exact rowGetD_set_ne _ _ _ _ hc
    · rw [List.set_eq_of_length_le (Nat.le_of_not_lt hlen)]
  · have h1 : (b.board.set r ((b.board.getD r []).set c v)).getD r2 [] =
        b.board.getD r2 [] := by
      rw [List.getD_eq_getElem?_getD, List.getElem?_set_ne hr,
        ← List.getD_eq_getElem?_getD]
    rw [h1]

theorem get_set_self (b : SudokuBoard) (r c v : Nat)
    (hr : r < b.board.length) (hc : c < (b.board.getD r []).length) :
    (b.set r c v).get r c = v := by
  unfold SudokuBoard.get SudokuBoard.set
  have h1 : (b.board.set r ((b.board.getD r []).set c v)).getD r [] =
      (b.board.getD r []).set c v := by
    rw [List.getD_eq_getElem?_getD, List.getElem?_set_self hr, Option.getD_some]
  rw [h1]
  rw [List.getD_eq_getElem _ _ (by simpa using hc), List.getElem_set_self]

theorem WF_get_set_self (b : SudokuBoard) (hWF : WF b) (r c v : Nat)
    (hr : r < b.board_size) (hc : c < b.board_size) :
    (b.set r c v).get r c = v := by
  apply get_set_self
  · rw [hWF.2.1]; exact hr
  · rw [WF_row_length b hWF r hr]; exact hc

theorem WF_set (b : SudokuBoard) (hWF : WF b) (r c v : Nat)
    (hr : r < b.board_size) : WF (b.set r c v) := by
  obtain ⟨hn, hlen, hrows⟩ := hWF
  refine ⟨hn, ?_, ?_⟩
  · show (b.board.set r _).length = b.board_size
    rw [List.length_set]; exact hlen
  · intro row hrow
    rcases List.mem_or_eq_of_mem_set hrow with h1 | h2
    · exact hrows _ h1
    · subst h2
      rw [List.length_set]
      exact WF_row_length b ⟨hn, hlen, hrows⟩ r hr

theorem contains_false_not_mem (l : List Nat) (a : Nat)
    (h : l.contains a = false) : ¬ a ∈ l := by
  intro hm
  rw [← List.elem_iff] at hm
  simp only [List.contains] at h
  rw [hm] at h
  cases h

/-- What membership in `get_candidates` gives: the cell is empty, the
value is in `[1, side]`, and it conflicts with no row, column or box
value. -/
theorem mem_candidates (b : SudokuBoard) (row col v : Nat)
    (h : v ∈ b.get_candidates row col) :
    b.is_empty row col = true ∧ 1 ≤ v ∧ v ≤ b.board_size ∧
      ¬ v ∈ b.rowVals row ∧ ¬ v ∈ b.colVals col ∧ ¬ v ∈ b.boxVals row col := by
  unfold SudokuBoard.get_candidates at h
  split at h
  next => simp at h
  next hne =>
    rw [List.mem_filter] at h
    obtain ⟨hmem, hpred⟩ := h
    rw [List.mem_map] at hmem
    obtain ⟨x, hx, hxv⟩ := hmem
    rw [List.mem_range] at hx
    simp only [Bool.and_eq_true, Bool.not_eq_true'] at hpred
    obtain ⟨⟨hA, hB⟩, hC⟩ := hpred
    refine ⟨?_, by omega, by omega, ?_, ?_, ?_⟩
    · cases hemp : b.is_empty row col
      · exact absurd (by rw [hemp]; rfl) hne
      · rfl
    · exact contains_false_not_mem _ _ hA
    · exact contains_false_not_mem _ _ hB
    · exact contains_false_not_mem _ _ hC

theorem get_mem_rowVals (b : SudokuBoard) (hWF : WF b) (r c : Nat)
    (hr : r < b.board_size) (hc : c < b.board_size) :
    b.get r c ∈ b.rowVals r := by
  unfold SudokuBoard.get SudokuBoard.rowVals
  have hcl : c < (b.board.getD r []).length := by
    rw [WF_row_length b hWF r hr]; exact hc
  rw [List.getD_eq_getElem _ _ hcl]
  exact List.getElem_mem hcl

theorem get_mem_colVals (b : SudokuBoard) (r c : Nat)
    (hr : r < b.board_size) : b.get r c ∈ b.colVals c := by
  unfold SudokuBoard.colVals
  rw [List.mem_map]
  exact ⟨r, List.mem_range.mpr hr, rfl⟩

theorem get_mem_boxVals (b : SudokuBoard) (hn : 0 < b.n) (r c r2 c2 : Nat)
    (hbr : r2 / b.n = r / b.n) (hbc : c2 / b.n = c / b.n) :
    b.get r2 c2 ∈ b.boxVals r c := by
  simp only [SudokuBoard.boxVals, SudokuBoard.get_box_index]
  rw [List.mem_flatMap]
  refine ⟨r2 % b.n, List.mem_range.mpr (Nat.mod_lt _ hn), ?_⟩
  rw [List.mem_map]
  refine ⟨c2 % b.n, List.mem_range.mpr (Nat.mod_lt _ hn), ?_⟩
  have e1 : r / b.n * b.n + r2 % b.n = r2 := by
    rw [← hbr, Nat.mul_comm]
    exact Nat.div_add_mod r2 b.n
  have e2 : c / b.n * b.n + c2 % b.n = c2 := by
    rw [← hbc, Nat.mul_comm]
    exact Nat.div_add_mod c2 b.n
  rw [e1, e2]

/-- A trial assignment from the candidate set preserves the consistency
invariant. -/
theorem NoDup_set (b : SudokuBoard) (hWF : WF b) (hND : NoDup b)
    (row col v : Nat) (hrow : row < b.board_size) (hcol : col < b.board_size)
    (hv : v ∈ b.get_candidates row col) : NoDup (b.set row col v) := by
  obtain ⟨hemp, hv1, hv2, hnr, hnc, hnb⟩ := mem_candidates b row col v hv
  have hn : 0 < b.n := hWF.1
  intro r hr c hc r2 hr2 c2 hc2 hne hsu hnz
  by_cases h1 : r = row ∧ c = col
  · obtain ⟨rfl, rfl⟩ := h1
    have hne2 : (r, c) ≠ (r2, c2) := hne
    rw [WF_get_set_self b hWF r c v hrow hcol]
    rw [get_set_ne b r c v r2 c2 hne2]
    intro hEq
    rcases hsu with h | h | ⟨hA, hB⟩
    · exact hnr (hEq ▸ h ▸ get_mem_rowVals b hWF r c2 hr hc2)
    · exact hnc (hEq ▸ h ▸ get_mem_colVals b r2 c hr2)
    · exact hnb (hEq ▸ get_mem_boxVals b hn r c r2 c2 hA.symm hB.symm)
  · have hne1 : (row, col) ≠ (r, c) := by
      intro h
      exact h1 ⟨(Prod.mk.injEq .. ▸ h).1.symm, (Prod.mk.injEq .. ▸ h).2.symm⟩
    by_cases h2 : r2 = row ∧ c2 = col
    · obtain ⟨rfl, rfl⟩ := h2
      rw [WF_get_set_self b hWF r2 c2 v hrow hcol]
      rw [get_set_ne b r2 c2 v r c hne1]
      intro hEq
      rcases hsu with h | h | ⟨hA, hB⟩
      · exact hnr (hEq ▸ h ▸ get_mem_rowVals b hWF r2 c hr2 hc)
      · exact hnc (hEq ▸ h ▸ get_mem_colVals b r c2 hr)
      · exact hnb (hEq ▸ get_mem_boxVals b hn r2 c2 r c hA hB)
    · have hne3 : (row, col) ≠ (r2, c2) := by
        intro h
        exact h2 ⟨(Prod.mk.injEq .. ▸ h).1.symm, (Prod.mk.injEq .. ▸ h).2.symm⟩
      rw [get_set_ne b row col v r c hne1] at hnz ⊢
      rw [get_set_ne b row col v r2 c2 hne3]
      exact hND r hr c hc r2 hr2 c2 hc2 hne hsu hnz

theorem copy_eq (b : SudokuBoard) : b.copy = b := by
  cases b with
  | mk n board => simp [SudokuBoard.copy, List.map_id']

theorem positions_mem (side : Nat) (p : Nat × Nat) (h : p ∈ positions side) :
    p.1 < side ∧ p.2 < side := by
  unfold positions at h
  rw [List.mem_flatMap] at h
  obtain ⟨r, hr, hmem⟩ := h
  rw [List.mem_map] at hmem
  obtain ⟨c, hc, rfl⟩ := hmem
  exact ⟨List.mem_range.mp hr, List.mem_range.mp hc⟩

theorem firstEmpty_some (b : SudokuBoard) :
    ∀ l p, firstEmpty b l = some p → p ∈ l ∧ b.is_empty p.1 p.2 = true := by
  intro l
  induction l with
  | nil => intro p h; simp [firstEmpty] at h
  | cons q rest ih =>
    intro p h
    rw [firstEmpty] at h
    split at h
    next hq =>
      obtain rfl : q = p := by simpa using h
      exact ⟨List.mem_cons_self _ _, hq⟩
    next =>
      obtain ⟨hm, he⟩ := ih p h
      exact ⟨List.mem_cons_of_mem _ hm, he⟩

theorem mrvLoop_some (b : SudokuBoard) :
    ∀ l minc best p, mrvLoop b l minc best = some p →
      (p ∈ l ∧ b.is_empty p.1 p.2 = true) ∨ best = some p := by
  intro l
  induction l with
  | nil =>
    intro minc best p h
    simp only [mrvLoop] at h
    exact Or.inr h
  | cons q rest ih =>
    intro minc best p h
    rw [mrvLoop] at h
    split at h
    next hq =>
      split at h
      next =>
        obtain rfl : q = p := by simpa using h
        exact Or.inl ⟨List.mem_cons_self _ _, hq⟩
      next =>
        split at h
        next =>
          rcases ih _ _ _ h with ⟨hm, he⟩ | hb
          · exact Or.inl ⟨List.mem_cons_of_mem _ hm, he⟩
          · obtain rfl : q = p := by simpa using hb
            exact Or.inl ⟨List.mem_cons_self _ _, hq⟩
        next =>
          rcases ih _ _ _ h with ⟨hm, he⟩ | hb
          · exact Or.inl ⟨List.mem_cons_of_mem _ hm, he⟩
          · exact Or.inr hb
    next =>
      rcases ih _ _ _ h with ⟨hm, he⟩ | hb
      · exact Or.inl ⟨List.mem_cons_of_mem _ hm, he⟩
      · exact Or.inr hb

/-- Whatever the heuristic, a selected cell is in range and empty. -/
theorem select_some (cfg : Config) (b : SudokuBoard) (r c : Nat)
    (h : select_unassigned_variable cfg b = some (r, c)) :
    r < b.board_size ∧ c < b.board_size ∧ b.is_empty r c = true := by
  unfold select_unassigned_variable at h
  split at h
  · obtain ⟨hm, he⟩ := firstEmpty_some b _ _ h
    have hp := positions_mem _ _ hm
    exact ⟨hp.1, hp.2, he⟩
  · rcases mrvLoop_some b _ _ _ _ h with ⟨hm, he⟩ | hb
    · have hp := positions_mem _ _ hm
      exact ⟨hp.1, hp.2, he⟩
    · cases hb

theorem tryCandidates_snaps (cfg : Config)
    (recur : SudokuBoard → SState → Option SudokuBoard × SState)
    (hrec : ∀ b' st', WF b' → NoDup b' → (∀ s ∈ st'.snaps, NoDup s) →
      ∀ s ∈ (recur b' st').2.snaps, NoDup s)
    (b : SudokuBoard) (row col : Nat) (hWF : WF b) (hND : NoDup b)
    (hrow : row < b.board_size) (hcol : col < b.board_size) :
    ∀ cands, (∀ v ∈ cands, v ∈ b.get_candidates row col) →
      ∀ st, (∀ s ∈ st.snaps, NoDup s) →
        ∀ s ∈ (tryCandidates cfg recur b row col cands st).2.snaps, NoDup s := by
  intro cands
  induction cands with
  | nil =>
    intro hsub st hst
    simpa [tryCandidates] using hst
  | cons num rest ih =>
    intro hsub st hst
    have hWFs : WF (b.set row col num) := WF_set b hWF row col num hrow
    have hNDs : NoDup (b.set row col num) :=
      NoDup_set b hWF hND row col num hrow hcol (hsub num (List.mem_cons_self _ _))
    rw [tryCandidates]
    split
    · exact ih (fun v hv => hsub v (List.mem_cons_of_mem _ hv)) _
        (by simpa [undoFC, logSet] using hst)
    · split
      next sol2 st2 heq =>
        intro s hs
        have h2 := hrec (b.set row col num) (logSet st row col num) hWFs hNDs
          (by simpa [logSet] using hst)
        rw [heq] at h2
        exact h2 s hs
      next st2 heq =>
        have h2 := hrec (b.set row col num) (logSet st row col num) hWFs hNDs
          (by simpa [logSet] using hst)
        rw [heq] at h2
        exact ih (fun v hv => hsub v (List.mem_cons_of_mem _ hv))
          (undoRec st2 row col) (by simpa [undoRec] using h2)

theorem backtrack_snaps (cfg : Config) :
    ∀ fuel b st, WF b → NoDup b → (∀ s ∈ st.snaps, NoDup s) →
      ∀ s ∈ (backtrack cfg fuel b st).2.snaps, NoDup s := by
  intro fuel
  induction fuel with
  | zero =>
    intro b st _ _ hst
    simpa [backtrack] using hst
  | succ fuel ih =>
    intro b st hWF hND hst
    have hbump : ∀ s ∈ (bumpNode st b).snaps, NoDup s := by
      intro s hs
      simp only [bumpNode] at hs
      rcases List.mem_append.mp hs with h | h
      · exact hst s h
      · rw [List.mem_singleton] at h
        subst h
        exact hND
    rw [backtrack]
    split
    next =>
      split
      · exact hbump
      · exact hbump
    next row col heq =>
      split
      · simpa [markDeadEnd] using hbump
      · obtain ⟨hr, hc, -⟩ := select_some cfg b row col heq
        exact tryCandidates_snaps cfg (backtrack cfg fuel)
          (fun b' st' => ih b' st') b row col hWF hND hr hc
          (b.get_candidates row col) (fun v hv => hv) (bumpNode st b) hbump

/-- C2: provided the input board satisfies the consistency invariant
`NoDup` (and is well-formed), every snapshot handed to the step-observer
callback during `solve` satisfies `NoDup` too — each trial assignment
draws its value from the cell's candidate set, which excludes all
conflicting values (`NoDup_set`), so no reachable state ever duplicates
a nonzero value in a row, column or box. -/
theorem search_preserves_invariant (cfg : Config) (b : SudokuBoard)
    (hWF : WF b) (hND : NoDup b) :
    ∀ s ∈ (solve cfg b).stats.snaps, NoDup s := by
  have h := backtrack_snaps cfg (countEmpty b.copy + 1) b.copy SState.init
    (by rw [copy_eq]; exact hWF) (by rw [copy_eq]; exact hND)
    (by intro s hs; simp [SState.init] at hs)
  unfold solve
  split
  next heq =>
    rw [heq] at h
    exact h
  next heq =>
    rw [heq] at h
    exact h

/-- Witness for C2: the one-hole 4x4 board is well-formed and satisfies
the invariant; the theorem then covers every snapshot of its solve. -/
theorem search_preserves_invariant_witness :
    (WF oneHole4 ∧ NoDup oneHole4) ∧
      ∀ s ∈ (solve ⟨true, true⟩ oneHole4).stats.snaps, NoDup s :=
  ⟨⟨by decide, by decide⟩,
    search_preserves_invariant ⟨true, true⟩ oneHole4 (by decide) (by decide)⟩

/-- C6 counterexample: on `deadEnd4` the search hits the empty-candidate
dead-end path once, yet the backtrack counter stays 0 — the dead-end path
does not increment it, contradicting the claim's accounting. -/
theorem statistics_claim_counterexample :
    (solve ⟨true, true⟩ deadEnd4).stats.deadEnds = 1 ∧
    (solve ⟨true, true⟩ deadEnd4).stats.backtrack_count = 0 ∧
    (solve ⟨true, true⟩ deadEnd4).stats.backtrack_count ≠
      (solve ⟨true, true⟩ deadEnd4).stats.deadEnds +
        (solve ⟨true, true⟩ deadEnd4).stats.fcUndos +
        (solve ⟨true, true⟩ deadEnd4).stats.recUndos := by
  decide

/-! ## MRV selection refines its specification (C4) -/

theorem candidates_length_le (b : SudokuBoard) (row col : Nat) :
    (b.get_candidates row col).length ≤ b.board_size := by
  unfold SudokuBoard.get_candidates
  split
  · exact Nat.zero_le _
  · calc (((List.range b.board_size).map (· + 1)).filter _).length
        ≤ ((List.range b.board_size).map (· + 1)).length :=
          List.length_filter_le _ _
      _ = b.board_size := by rw [List.length_map, List.length_range]

theorem mrvLoop_spec_some (b : SudokuBoard) :
    ∀ l q, b.is_empty q.1 q.2 = true →
      (b.get_candidates q.1 q.2).length ≠ 0 →
      mrvLoop b l (b.get_candidates q.1 q.2).length (some q) =
        match l.find? (fun p =>
            b.is_empty p.1 p.2 && ((b.get_candidates p.1 p.2).length == 0)) with
        | some p => some p
        | none => some (specArgminAux b q (l.filter fun p => b.is_empty p.1 p.2)) := by
  intro l
  induction l with
  | nil => intro q hq hcnt; rfl
  | cons p rest ih =>
    intro q hq hcnt
    rw [mrvLoop, List.find?_cons, List.filter_cons]
    by_cases hemp : b.is_empty p.1 p.2 = true
    · rw [if_pos hemp]
      simp only [hemp, Bool.true_and, if_pos]
      by_cases hzero : (b.get_candidates p.1 p.2).length = 0
      · rw [if_pos hzero]
        simp [hzero]
      · rw [if_neg hzero]
        have hbeq : ((b.get_candidates p.1 p.2).length == 0) = false := by
          simp [hzero]
        rw [hbeq]
        simp only []
        rw [specArgminAux]
        by_cases hlt : (b.get_candidates p.1 p.2).length <
            (b.get_candidates q.1 q.2).length
        · rw [if_pos hlt, if_pos hlt]
          exact ih p hemp hzero
        · rw [if_neg hlt, if_neg hlt]
          exact ih q hq hcnt
    · rw [if_neg hemp]
      have hb : b.is_empty p.1 p.2 = false := by
        cases h2 : b.is_empty p.1 p.2
        · rfl
        · exact absurd h2 hemp
      rw [hb]
      simp only [Bool.false_and, if_neg]
      exact ih q hq hcnt

theorem mrvLoop_spec_none (b : SudokuBoard) :
    ∀ l minc, b.board_size < minc →
      mrvLoop b l minc none =
        match l.find? (fun p =>
            b.is_empty p.1 p.2 && ((b.get_candidates p.1 p.2).length == 0)) with
        | some p => some p
        | none =>
          match l.filter (fun p => b.is_empty p.1 p.2) with
          | [] => none
          | p :: rest => some (specArgminAux b p rest) := by
  intro l
  induction l with
  | nil => intro minc hminc; rfl
  | cons p rest ih =>
    intro minc hminc
    rw [mrvLoop, List.find?_cons, List.filter_cons]
    by_cases hemp : b.is_empty p.1 p.2 = true
    · rw [if_pos hemp]
      simp only [hemp, Bool.true_and, if_pos]
      by_cases hzero : (b.get_candidates p.1 p.2).length = 0
      · rw [if_pos hzero]
        simp [hzero]
      · rw [if_neg hzero]
        have hbeq : ((b.get_candidates p.1 p.2).length == 0) = false := by
          simp [hzero]
        rw [hbeq]
        have hlt : (b.get_candidates p.1 p.2).length < minc :=
          Nat.lt_of_le_of_lt (candidates_length_le b p.1 p.2) hminc
        rw [if_pos hlt]
        simp only []
        exact mrvLoop_spec_some b rest p hemp hzero
    · rw [if_neg hemp]
      have hb : b.is_empty p.1 p.2 = false := by
        cases h2 : b.is_empty p.1 p.2
        · rfl
        · exact absurd h2 hemp
      rw [hb]
      simp only [Bool.false_and, if_neg]
      exact ih minc hminc

/-- C4: with MRV enabled, `_select_unassigned_variable` computes exactly
the claim's specification `mrvSpec` — the scan short-circuits on the
first zero-candidate empty cell in row-major order, otherwise returns
the empty cell of minimal candidate count with the earliest-encountered
winner on ties — and when at least one empty cell exists it returns a
cell. -/
theorem mrv_selection_refines_spec (fc : Bool) (b : SudokuBoard)
    (h : ∃ p ∈ positions b.board_size, b.is_empty p.1 p.2 = true) :
    select_unassigned_variable ⟨true, fc⟩ b = mrvSpec b ∧
      (mrvSpec b).isSome = true := by
  have heq : select_unassigned_variable ⟨true, fc⟩ b = mrvSpec b := by
    unfold select_unassigned_variable mrvSpec
    simp only [Bool.not_true]
    rw [if_neg (by simp)]
    exact mrvLoop_spec_none b (positions b.board_size) (b.board_size + 1)
      (Nat.lt_succ_self _)
  refine ⟨heq, ?_⟩
  obtain ⟨p, hp, hemp⟩ := h
  unfold mrvSpec
  split
  · rfl
  next hfind =>
    split
    next hfil =>
      exfalso
      have : p ∈ (positions b.board_size).filter fun q => b.is_empty q.1 q.2 :=
        List.mem_filter.mpr ⟨hp, hemp⟩
      rw [hfil] at this
      cases this
    next => rfl

/-- Witness for C4: the one-hole 4x4 board has an empty cell; the MRV
scan agrees with the specification on it. -/
theorem mrv_selection_refines_spec_witness :
    (∃ p ∈ positions oneHole4.board_size, oneHole4.is_empty p.1 p.2 = true) ∧
      select_unassigned_variable ⟨true, true⟩ oneHole4 = mrvSpec oneHole4 ∧
      (mrvSpec oneHole4).isSome = true :=
  ⟨by decide, mrv_selection_refines_spec true oneHole4 (by decide)⟩

/-! ## Cell-level reading of `is_valid_solution` (shared by C3 and C5) -/

theorem nodup_of_dedup_length (l : List Nat) (h : l.dedup.length = l.length) :
    l.Nodup := by
  have he := (List.dedup_sublist l).eq_of_length h
  rw [← he]
  exact List.nodup_dedup l

theorem dedup_length_of_nodup (l : List Nat) (h : l.Nodup) :
    l.dedup.length = l.length := by rw [h.dedup]

theorem filter_eq_single {α : Type} [DecidableEq α] (p : α → Bool) (x : α) :
    ∀ l : List α, l.Nodup → x ∈ l → (∀ u ∈ l, p u = true ↔ u = x) →
      l.filter p = [x] := by
  intro l
  induction l with
  | nil => intro _ hx _; cases hx
  | cons a rest ih =>
    intro hnd hx hiff
    rw [List.filter_cons]
    by_cases hax : a = x
    · subst hax
      rw [if_pos ((hiff a (List.mem_cons_self _ _)).mpr rfl)]
      have hnil : rest.filter p = [] := by
        rw [List.filter_eq_nil_iff]
        intro u hu hp
        exact (List.nodup_cons.mp hnd).1
          (((hiff u (List.mem_cons_of_mem _ hu)).mp hp) ▸ hu)
      rw [hnil]
    · have hpa : ¬ p a = true := fun hp =>
        hax ((hiff a (List.mem_cons_self _ _)).mp hp)
      rw [if_neg hpa]
      exact ih (List.nodup_cons.mp hnd).2
        ((List.mem_cons.mp hx).resolve_left fun he => hax he.symm)
        (fun u hu => hiff u (List.mem_cons_of_mem _ hu))

theorem mem_positions (side r c : Nat) (hr : r < side) (hc : c < side) :
    (r, c) ∈ positions side := by
  unfold positions
  rw [List.mem_flatMap]
  exact ⟨r, List.mem_range.mpr hr,
    List.mem_map.mpr ⟨c, List.mem_range.mpr hc, rfl⟩⟩

theorem positions_nodup (side : Nat) : (positions side).Nodup := by
  unfold positions
  rw [List.nodup_flatMap]
  constructor
  · intro r _
    exact (List.nodup_range side).map fun c1 c2 h => by
      exact (Prod.mk.injEq .. ▸ h).2
  · rw [List.pairwise_iff_getElem]
    intro i j hi hj hij
    intro p hp1 hp2
    rw [List.mem_map] at hp1 hp2
    obtain ⟨c1, -, hpc1⟩ := hp1
    obtain ⟨c2, -, hpc2⟩ := hp2
    have h1 : p.1 = (List.range side)[i] := by rw [← hpc1]
    have h2 : p.1 = (List.range side)[j] := by rw [← hpc2]
    rw [List.getElem_range] at h1 h2
    omega

theorem rowVals_length (b : SudokuBoard) (hWF : WF b) (r : Nat)
    (hr : r < b.board_size) : (b.rowVals r).length = b.board_size :=
  WF_row_length b hWF r hr

theorem colVals_length (b : SudokuBoard) (c : Nat) :
    (b.colVals c).length = b.board_size := by
  simp [SudokuBoard.colVals]

theorem rowVals_getElem (b : SudokuBoard) (r c : Nat)
    (h : c < (b.rowVals r).length) : (b.rowVals r)[c] = b.get r c := by
  unfold SudokuBoard.get
  exact (List.getD_eq_getElem _ _ h).symm

theorem colVals_getElem (b : SudokuBoard) (c r : Nat)
    (h : r < (b.colVals c).length) : (b.colVals c)[r] = b.get r c := by
  simp [SudokuBoard.colVals]

theorem getElem_ne_of_nodup {l : List Nat} (h : l.Nodup) {i j : Nat}
    (hi : i < l.length) (hj : j < l.length) (hij : i ≠ j) : l[i] ≠ l[j] := by
  rcases Nat.lt_or_ge i j with hlt | hge
  · exact (List.pairwise_iff_getElem.mp h) i j hi hj hlt
  · have hlt : j < i := Nat.lt_of_le_of_ne hge fun he => hij he.symm
    exact ((List.pairwise_iff_getElem.mp h) j i hj hi hlt).symm

theorem valid_solution_decomp (f : SudokuBoard)
    (h : f.is_valid_solution = true) :
    f.is_complete = true ∧
      (∀ i < f.board_size,
        SudokuBoard.pyLenSet (f.rowVals i) = f.board_size ∧
          SudokuBoard.pyLenSet (f.colVals i) = f.board_size) ∧
      (∀ bi < f.n, ∀ bj < f.n,
        SudokuBoard.pyLenSet (f.boxVals (bi * f.n) (bj * f.n)) = f.board_size) := by
  unfold SudokuBoard.is_valid_solution at h
  simp only [Bool.and_eq_true, List.all_eq_true, List.mem_range, beq_iff_eq] at h
  obtain ⟨⟨h1, h2⟩, h3⟩ := h
  exact ⟨h1, fun i hi => h2 i hi, fun bi hbi bj hbj => h3 bi hbi bj hbj⟩

theorem valid_solution_build (f : SudokuBoard)
    (h1 : f.is_complete = true)
    (h2 : ∀ i < f.board_size,
      SudokuBoard.pyLenSet (f.rowVals i) = f.board_size ∧
        SudokuBoard.pyLenSet (f.colVals i) = f.board_size)
    (h3 : ∀ bi < f.n, ∀ bj < f.n,
      SudokuBoard.pyLenSet (f.boxVals (bi * f.n) (bj * f.n)) = f.board_size) :
    f.is_valid_solution = true := by
  unfold SudokuBoard.is_valid_solution
  simp only [Bool.and_eq_true, List.all_eq_true, List.mem_range, beq_iff_eq]
  exact ⟨⟨h1, fun i hi => h2 i hi⟩, fun bi hbi bj hbj => h3 bi hbi bj hbj⟩

theorem complete_get (f : SudokuBoard) (h : f.is_complete = true)
    (r c : Nat) (hr : r < f.board_size) (hc : c < f.board_size) :
    f.get r c ≠ 0 := by
  unfold SudokuBoard.is_complete at h
  rw [List.all_eq_true] at h
  have h2 := h r (List.mem_range.mpr hr)
  rw [List.all_eq_true] at h2
  have h3 := h2 c (List.mem_range.mpr hc)
  simpa using h3

theorem get_complete (f : SudokuBoard)
    (h : ∀ r < f.board_size, ∀ c < f.board_size, f.get r c ≠ 0) :
    f.is_complete = true := by
  unfold SudokuBoard.is_complete
  rw [List.all_eq_true]
  intro r hr
  rw [List.all_eq_true]
  intro c hc
  simpa using h r (List.mem_range.mp hr) c (List.mem_range.mp hc)

theorem corner_div (n q i : Nat) (hn : 0 < n) (hi : i < n) :
    (q * n + i) / n = q := by
  rw [Nat.mul_comm q n, Nat.mul_add_div hn, Nat.div_eq_of_lt hi, Nat.add_zero]

theorem cell_lt (n bi i : Nat) (hbi : bi < n) (hi : i < n) :
    bi * n + i < n * n :=
  calc bi * n + i < bi * n + n := Nat.add_lt_add_left hi _
    _ = (bi + 1) * n := by rw [Nat.succ_mul]
    _ ≤ n * n := Nat.mul_le_mul_right n (Nat.succ_le_of_lt hbi)

theorem box_corner (b : SudokuBoard) (hn : 0 < b.n) (bi bj : Nat) :
    b.get_box_index (bi * b.n) (bj * b.n) = (bi * b.n, bj * b.n) := by
  unfold SudokuBoard.get_box_index
  rw [Nat.mul_div_cancel bi hn, Nat.mul_div_cancel bj hn]

theorem boxVals_corner_eq (b : SudokuBoard) (hn : 0 < b.n) (bi bj : Nat) :
    b.boxVals (bi * b.n) (bj * b.n) =
      (List.range b.n).flatMap fun i => (List.range b.n).map fun j =>
        b.get (bi * b.n + i) (bj * b.n + j) := by
  simp only [SudokuBoard.boxVals, box_corner b hn bi bj]

theorem boxVals_corner_length (b : SudokuBoard) (hn : 0 < b.n) (bi bj : Nat) :
    (b.boxVals (bi * b.n) (bj * b.n)).length = b.n * b.n := by
  rw [boxVals_corner_eq b hn, List.length_flatMap]
  have hc : (List.length ∘ fun i => (List.range b.n).map fun j =>
      b.get (bi * b.n + i) (bj * b.n + j)) = fun _ : Nat => b.n := by
    funext i
    simp
  rw [hc, List.map_const', List.length_range, List.sum_replicate, smul_eq_mul]

theorem box_pair_ne (b : SudokuBoard) (hWF : WF b) (bi bj : Nat)
    (hnd : (b.boxVals (bi * b.n) (bj * b.n)).Nodup)
    (i j i2 j2 : Nat) (hi : i < b.n) (hj : j < b.n)
    (hi2 : i2 < b.n) (hj2 : j2 < b.n) (hne : (i, j) ≠ (i2, j2)) :
    b.get (bi * b.n + i) (bj * b.n + j) ≠
      b.get (bi * b.n + i2) (bj * b.n + j2) := by
  have hn : 0 < b.n := hWF.1
  rw [boxVals_corner_eq b hn, List.nodup_flatMap] at hnd
  obtain ⟨hchunks, hdisj⟩ := hnd
  by_cases hii : i = i2
  · subst hii
    have hjj : j ≠ j2 := fun he => hne (by rw [he])
    have hch := hchunks i (List.mem_range.mpr hi)
    intro hEq
    have hju := getElem_ne_of_nodup hch (i := j) (j := j2)
      (by simp [hj]) (by simp [hj2]) hjj
    apply hju
    simp only [List.getElem_map, List.getElem_range]
    exact hEq
  · intro hEq
    have hpw := List.pairwise_iff_getElem.mp hdisj
    have hm1 : b.get (bi * b.n + i) (bj * b.n + j) ∈
        (List.range b.n).map fun jj => b.get (bi * b.n + i) (bj * b.n + jj) :=
      List.mem_map.mpr ⟨j, List.mem_range.mpr hj, rfl⟩
    have hm2 : b.get (bi * b.n + i) (bj * b.n + j) ∈
        (List.range b.n).map fun jj => b.get (bi * b.n + i2) (bj * b.n + jj) := by
      rw [hEq]
      exact List.mem_map.mpr ⟨j2, List.mem_range.mpr hj2, rfl⟩
    rcases Nat.lt_or_ge i i2 with hlt | hge
    · have hd := hpw i i2 (by simp [hi]) (by simp [hi2]) hlt
      simp only [List.getElem_range] at hd
      exact hd hm1 hm2
    · have hlt2 : i2 < i := Nat.lt_of_le_of_ne hge fun he => hii he.symm
      have hd := hpw i2 i (by simp [hi2]) (by simp [hi]) hlt2
      simp only [List.getElem_range] at hd
      exact hd hm2 hm1

/-- `is_valid_solution` at cell level: a valid solution is complete and
any two distinct cells of a common unit hold distinct values. -/
theorem valid_solution_unitsDistinct (f : SudokuBoard) (hWF : WF f)
    (h : f.is_valid_solution = true) :
    f.is_complete = true ∧ unitsDistinct f := by
  obtain ⟨h1, h2, h3⟩ := valid_solution_decomp f h
  have hn : 0 < f.n := hWF.1
  refine ⟨h1, ?_⟩
  intro r hr c hc r2 hr2 c2 hc2 hne hsu
  rcases hsu with heq | heq | ⟨hA, hB⟩
  · subst heq
    have hcne : c ≠ c2 := by rintro rfl; exact hne rfl
    have hlen := rowVals_length f hWF r hr
    have hnd : (f.rowVals r).Nodup :=
      nodup_of_dedup_length _ (by rw [hlen]; exact (h2 r hr).1)
    have hx := getElem_ne_of_nodup hnd (i := c) (j := c2)
      (by rw [hlen]; exact hc) (by rw [hlen]; exact hc2) hcne
    rw [rowVals_getElem, rowVals_getElem] at hx
    exact hx
  · subst heq
    have hrne : r ≠ r2 := by rintro rfl; exact hne rfl
    have hlen := colVals_length f c
    have hnd : (f.colVals c).Nodup :=
      nodup_of_dedup_length _ (by rw [hlen]; exact (h2 c hc).2)
    have hx := getElem_ne_of_nodup hnd (i := r) (j := r2)
      (by rw [hlen]; exact hr) (by rw [hlen]; exact hr2) hrne
    rw [colVals_getElem, colVals_getElem] at hx
    exact hx
  · have hbi : r / f.n < f.n := by rw [Nat.div_lt_iff_lt_mul hn]; exact hr
    have hbj : c / f.n < f.n := by rw [Nat.div_lt_iff_lt_mul hn]; exact hc
    have hnd : (f.boxVals (r / f.n * f.n) (c / f.n * f.n)).Nodup :=
      nodup_of_dedup_length _
        (by rw [boxVals_corner_length f hn]; exact h3 _ hbi _ hbj)
    have her : r / f.n * f.n + r % f.n = r := by
      rw [Nat.mul_comm]; exact Nat.div_add_mod r f.n
    have hec : c / f.n * f.n + c % f.n = c := by
      rw [Nat.mul_comm]; exact Nat.div_add_mod c f.n
    have her2 : r / f.n * f.n + r2 % f.n = r2 := by
      rw [hA, Nat.mul_comm]; exact Nat.div_add_mod r2 f.n
    have hec2 : c / f.n * f.n + c2 % f.n = c2 := by
      rw [hB, Nat.mul_comm]; exact Nat.div_add_mod c2 f.n
    have hne2 : (r % f.n, c % f.n) ≠ (r2 % f.n, c2 % f.n) := by
      intro he
      have e1 : r % f.n = r2 % f.n := (Prod.mk.injEq .. ▸ he).1
      have e2 : c % f.n = c2 % f.n := (Prod.mk.injEq .. ▸ he).2
      apply hne
      have t1 : r = r2 := by rw [← her, ← her2, e1]
      have t2 : c = c2 := by rw [← hec, ← hec2, e2]
      rw [t1, t2]
    have hx := box_pair_ne f hWF (r / f.n) (c / f.n) hnd
      (r % f.n) (c % f.n) (r2 % f.n) (c2 % f.n)
      (Nat.mod_lt r hn) (Nat.mod_lt c hn) (Nat.mod_lt r2 hn) (Nat.mod_lt c2 hn)
      hne2
    rw [her, hec, her2, hec2] at hx
    exact hx

theorem nodup_of_getElem_ne (l : List Nat)
    (h : ∀ (i j : Nat) (hi : i < l.length) (hj : j < l.length),
      i < j → l[i] ≠ l[j]) : l.Nodup :=
  List.pairwise_iff_getElem.mpr h

/-- Converse: a complete board whose units are cell-wise distinct passes
`is_valid_solution`. -/
theorem unitsDistinct_valid_solution (f : SudokuBoard) (hWF : WF f)
    (hcomp : f.is_complete = true) (hud : unitsDistinct f) :
    f.is_valid_solution = true := by
  have hn : 0 < f.n := hWF.1
  apply valid_solution_build f hcomp
  · intro i hi
    constructor
    · have hlen := rowVals_length f hWF i hi
      have hnd : (f.rowVals i).Nodup := by
        apply nodup_of_getElem_ne
        intro a b2 ha hb hab
        rw [rowVals_getElem, rowVals_getElem]
        rw [hlen] at ha hb
        exact hud i hi a ha i hi b2 hb
          (by intro he; exact absurd (Prod.mk.injEq .. ▸ he).2 (Nat.ne_of_lt hab))
          (Or.inl rfl)
      unfold SudokuBoard.pyLenSet
      rw [dedup_length_of_nodup _ hnd, hlen]
    · have hlen := colVals_length f i
      have hnd : (f.colVals i).Nodup := by
        apply nodup_of_getElem_ne
        intro a b2 ha hb hab
        rw [colVals_getElem, colVals_getElem]
        rw [hlen] at ha hb
        exact hud a ha i hi b2 hb i hi
          (by intro he; exact absurd (Prod.mk.injEq .. ▸ he).1 (Nat.ne_of_lt hab))
          (Or.inr (Or.inl rfl))
      unfold SudokuBoard.pyLenSet
      rw [dedup_length_of_nodup _ hnd, hlen]
  · intro bi hbi bj hbj
    have hnd : (f.boxVals (bi * f.n) (bj * f.n)).Nodup := by
      rw [boxVals_corner_eq f hn, List.nodup_flatMap]
      constructor
      · intro i hirange
        have hi := List.mem_range.mp hirange
        apply nodup_of_getElem_ne
        intro a b2 ha hb hab
        have han : a < f.n := by simpa using ha
        have hbn : b2 < f.n := by simpa using hb
        simp only [List.getElem_map, List.getElem_range]
        exact hud (bi * f.n + i) (cell_lt f.n bi i hbi hi)
          (bj * f.n + a) (cell_lt f.n bj a hbj han)
          (bi * f.n + i) (cell_lt f.n bi i hbi hi)
          (bj * f.n + b2) (cell_lt f.n bj b2 hbj hbn)
          (by
            intro he
            have := (Prod.mk.injEq .. ▸ he).2
            omega)
          (Or.inl rfl)
      · rw [List.pairwise_iff_getElem]
        intro x y hx hy hxy
        simp only [List.getElem_range]
        intro v hv1 hv2
        rw [List.mem_map] at hv1 hv2
        obtain ⟨j1, hj1m, he1⟩ := hv1
        obtain ⟨j2, hj2m, he2⟩ := hv2
        rw [List.mem_range] at hj1m hj2m
        have hxn : x < f.n := by simpa using hx
        have hyn : y < f.n := by simpa using hy
        have hEq : f.get (bi * f.n + x) (bj * f.n + j1) =
            f.get (bi * f.n + y) (bj * f.n + j2) := by rw [he1, he2]
        refine absurd hEq
          (hud (bi * f.n + x) (cell_lt f.n bi x hbi hxn)
            (bj * f.n + j1) (cell_lt f.n bj j1 hbj hj1m)
            (bi * f.n + y) (cell_lt f.n bi y hbi hyn)
            (bj * f.n + j2) (cell_lt f.n bj j2 hbj hj2m)
            ?_ ?_)
        · intro he
          have := (Prod.mk.injEq .. ▸ he).1
          omega
        · exact Or.inr (Or.inr ⟨by rw [corner_div f.n bi x hn hxn,
            corner_div f.n bi y hn hyn],
            by rw [corner_div f.n bj j1 hn hj1m, corner_div f.n bj j2 hn hj2m]⟩)
    unfold SudokuBoard.pyLenSet
    rw [dedup_length_of_nodup _ hnd, boxVals_corner_length f hn]
    rfl

/-! ## The one-hole scenario (C5) -/

theorem not_mem_contains_false (l : List Nat) (a : Nat) (h : ¬ a ∈ l) :
    l.contains a = false := by
  cases hc : l.contains a
  · rfl
  · exfalso
    apply h
    rw [← List.elem_iff]
    simpa [List.contains] using hc

theorem set_getD_self {α : Type} (d : α) :
    ∀ (l : List α) (i : Nat), i < l.length → l.set i (l.getD i d) = l := by
  intro l
  induction l with
  | nil => intro i h; cases h
  | cons a rest ih =>
    intro i h
    cases i with
    | zero => rfl
    | succ i =>
      rw [List.getD_cons_succ, List.set_cons_succ]
      exact congrArg (a :: ·) (ih i (by simpa using h))

/-- Re-assigning the cleared cell its original value restores the
original board. -/
theorem set_set_cancel (f : SudokuBoard) (hWF : WF f) (r0 c0 : Nat)
    (hr0 : r0 < f.board_size) (hc0 : c0 < f.board_size) :
    (f.set r0 c0 0).set r0 c0 (f.get r0 c0) = f := by
  have hr0l : r0 < f.board.length := by rw [hWF.2.1]; exact hr0
  have hc0l : c0 < (f.board.getD r0 []).length := by
    rw [WF_row_length f hWF r0 hr0]; exact hc0
  unfold SudokuBoard.set SudokuBoard.get
  have hB1 : (f.board.set r0 ((f.board.getD r0 []).set c0 0)).getD r0 [] =
      (f.board.getD r0 []).set c0 0 := by
    rw [List.getD_eq_getElem?_getD, List.getElem?_set_self (by simpa using hr0l),
      Option.getD_some]
  simp only [hB1, List.set_set]
  rw [set_getD_self 0 _ _ hc0l, set_getD_self [] _ _ hr0l]

theorem is_consistent_of_complete (f : SudokuBoard)
    (h : f.is_complete = true) : is_consistent f = true := by
  unfold is_consistent
  rw [List.all_eq_true]
  intro p hp
  have hb := positions_mem _ _ hp
  have hne := complete_get f h p.1 p.2 hb.1 hb.2
  simp [SudokuBoard.is_empty, hne]

/-- On a complete board with `Nodup` rows whose entries lie in
`[1, side]`, every value of `[1, side]` occurs in every row. -/
theorem row_values_cover (f : SudokuBoard) (hWF : WF f)
    (hcomp : f.is_complete = true)
    (hrange : ∀ r < f.board_size, ∀ c < f.board_size, f.get r c ≤ f.board_size)
    (hnd : ∀ r < f.board_size, (f.rowVals r).Nodup)
    (r : Nat) (hr : r < f.board_size) (u : Nat) (hu1 : 1 ≤ u)
    (hu2 : u ≤ f.board_size) : ∃ c < f.board_size, f.get r c = u := by
  have hlen := rowVals_length f hWF r hr
  have hsub : (f.rowVals r).toFinset ⊆ Finset.Icc 1 f.board_size := by
    intro x hx
    rw [List.mem_toFinset] at hx
    obtain ⟨c, hcl, hgc⟩ := List.mem_iff_getElem.mp hx
    rw [rowVals_getElem] at hgc
    have hcb : c < f.board_size := by rw [← hlen]; exact hcl
    rw [Finset.mem_Icc]
    constructor
    · rw [← hgc]
      exact Nat.one_le_iff_ne_zero.mpr (complete_get f hcomp r c hr hcb)
    · rw [← hgc]
      exact hrange r hr c hcb
  have hcard : (Finset.Icc 1 f.board_size).card ≤ (f.rowVals r).toFinset.card := by
    rw [List.card_toFinset, dedup_length_of_nodup _ (hnd r hr), hlen]
    simp
  have heq := Finset.eq_of_subset_of_card_le hsub hcard
  have hmem : u ∈ (f.rowVals r).toFinset := by
    rw [heq]
    exact Finset.mem_Icc.mpr ⟨hu1, hu2⟩
  rw [List.mem_toFinset] at hmem
  obtain ⟨c, hcl, hgc⟩ := List.mem_iff_getElem.mp hmem
  rw [rowVals_getElem] at hgc
  exact ⟨c, by rw [← hlen]; exact hcl, hgc⟩

/-- Clearing one cell of a valid, in-range solution leaves exactly the
cleared value as that cell's candidate set. -/
theorem cleared_candidates (f : SudokuBoard) (hWF : WF f)
    (hvs : f.is_valid_solution = true)
    (hrange : ∀ r < f.board_size, ∀ c < f.board_size, f.get r c ≤ f.board_size)
    (r0 c0 : Nat) (hr0 : r0 < f.board_size) (hc0 : c0 < f.board_size) :
    (f.set r0 c0 0).get_candidates r0 c0 = [f.get r0 c0] := by
  obtain ⟨hcomp, hud⟩ := valid_solution_unitsDistinct f hWF hvs
  have hn : 0 < f.n := hWF.1
  have hWFb : WF (f.set r0 c0 0) := WF_set f hWF r0 c0 0 hr0
  have hemp : (f.set r0 c0 0).is_empty r0 c0 = true := by
    unfold SudokuBoard.is_empty
    rw [WF_get_set_self f hWF r0 c0 0 hr0 hc0]
    rfl
  have hv0 : f.get r0 c0 ≠ 0 := complete_get f hcomp r0 c0 hr0 hc0
  have hvle : f.get r0 c0 ≤ f.board_size := hrange r0 hr0 c0 hc0
  have hnds : ∀ r < f.board_size, (f.rowVals r).Nodup := by
    intro r hr
    obtain ⟨-, h2, -⟩ := valid_solution_decomp f hvs
    exact nodup_of_dedup_length _
      (by rw [rowVals_length f hWF r hr]; exact (h2 r hr).1)
  unfold SudokuBoard.get_candidates
  rw [if_neg (by rw [hemp]; simp)]
  rw [show (f.set r0 c0 0).board_size = f.board_size from rfl]
  apply filter_eq_single
  · exact (List.nodup_range _).map fun a b h => by omega
  · rw [List.mem_map]
    exact ⟨f.get r0 c0 - 1, List.mem_range.mpr (by omega), by omega⟩
  · intro u hu
    rw [List.mem_map] at hu
    obtain ⟨x, hx, hxu⟩ := hu
    rw [List.mem_range] at hx
    have hu1 : 1 ≤ u := by omega
    have hu2 : u ≤ f.board_size := by omega
    constructor
    · intro hp
      by_contra hne
      obtain ⟨c, hcb, hgc⟩ :=
        row_values_cover f hWF hcomp hrange hnds r0 hr0 u hu1 hu2
      have hcne : c ≠ c0 := by
        intro he
        subst he
        exact hne hgc.symm
      have hbu : (f.set r0 c0 0).get r0 c = u := by
        rw [get_set_ne f r0 c0 0 r0 c
          (by intro he; exact hcne ((Prod.mk.injEq .. ▸ he).2).symm)]
        exact hgc
      have hmem : u ∈ (f.set r0 c0 0).rowVals r0 := by
        rw [← hbu]
        exact get_mem_rowVals _ hWFb r0 c hr0 hcb
      simp only [Bool.and_eq_true, Bool.not_eq_true'] at hp
      exact absurd hmem (contains_false_not_mem _ _ hp.1.1)
    · rintro rfl
      have hnr : ¬ f.get r0 c0 ∈ (f.set r0 c0 0).rowVals r0 := by
        intro hm
        obtain ⟨c, hcl, hgc⟩ := List.mem_iff_getElem.mp hm
        rw [rowVals_getElem] at hgc
        have hcb : c < f.board_size := by
          have hl := rowVals_length _ hWFb r0
            (show r0 < (f.set r0 c0 0).board_size from hr0)
          rw [hl] at hcl
          exact hcl
        by_cases hcc : c = c0
        · subst hcc
          rw [WF_get_set_self f hWF r0 c 0 hr0 hcb] at hgc
          exact hv0 hgc.symm
        · rw [get_set_ne f r0 c0 0 r0 c
            (by intro he; exact hcc ((Prod.mk.injEq .. ▸ he).2).symm)] at hgc
          exact hud r0 hr0 c hcb r0 hr0 c0 hc0
            (by intro he; exact hcc (Prod.mk.injEq .. ▸ he).2)
            (Or.inl rfl) hgc
      have hnc : ¬ f.get r0 c0 ∈ (f.set r0 c0 0).colVals c0 := by
        intro hm
        unfold SudokuBoard.colVals at hm
        rw [List.mem_map] at hm
        obtain ⟨r, hrm, hgr⟩ := hm
        rw [List.mem_range] at hrm
        have hrb : r < f.board_size := hrm
        by_cases hrr : r = r0
        · subst hrr
          rw [WF_get_set_self f hWF r c0 0 hrb hc0] at hgr
          exact hv0 hgr.symm
        · rw [get_set_ne f r0 c0 0 r c0
            (by intro he; exact hrr ((Prod.mk.injEq .. ▸ he).1).symm)] at hgr
          exact hud r hrb c0 hc0 r0 hr0 c0 hc0
            (by intro he; exact hrr (Prod.mk.injEq .. ▸ he).1)
            (Or.inr (Or.inl rfl)) hgr
      have hnb : ¬ f.get r0 c0 ∈ (f.set r0 c0 0).boxVals r0 c0 := by
        intro hm
        simp only [SudokuBoard.boxVals, SudokuBoard.get_box_index,
          show (f.set r0 c0 0).n = f.n from rfl] at hm
        rw [List.mem_flatMap] at hm
        obtain ⟨i, him, hm2⟩ := hm
        rw [List.mem_map] at hm2
        obtain ⟨j, hjm, hg⟩ := hm2
        rw [List.mem_range] at him hjm
        have hdr : r0 / f.n < f.n := by
          rw [Nat.div_lt_iff_lt_mul hn]; exact hr0
        have hdc : c0 / f.n < f.n := by
          rw [Nat.div_lt_iff_lt_mul hn]; exact hc0
        have hRb : r0 / f.n * f.n + i < f.board_size := cell_lt f.n _ i hdr him
        have hCb : c0 / f.n * f.n + j < f.board_size := cell_lt f.n _ j hdc hjm
        by_cases hpe : (r0 / f.n * f.n + i, c0 / f.n * f.n + j) = (r0, c0)
        · have e1 : r0 / f.n * f.n + i = r0 := (Prod.mk.injEq .. ▸ hpe).1
          have e2 : c0 / f.n * f.n + j = c0 := (Prod.mk.injEq .. ▸ hpe).2
          rw [e1, e2, WF_get_set_self f hWF r0 c0 0 hr0 hc0] at hg
          exact hv0 hg.symm
        · rw [get_set_ne f r0 c0 0 _ _
            (by intro he; exact hpe (by rw [← he]))] at hg
          refine absurd hg
            (hud _ hRb _ hCb r0 hr0 c0 hc0 hpe (Or.inr (Or.inr ⟨?_, ?_⟩)))
          · rw [corner_div f.n _ i hn him]
          · rw [corner_div f.n _ j hn hjm]
      simp only [Bool.and_eq_true, Bool.not_eq_true']
      exact ⟨⟨not_mem_contains_false _ _ hnr, not_mem_contains_false _ _ hnc⟩,
        not_mem_contains_false _ _ hnb⟩

theorem cleared_empty_iff (f : SudokuBoard) (hWF : WF f)
    (hcomp : f.is_complete = true) (r0 c0 : Nat)
    (hr0 : r0 < f.board_size) (hc0 : c0 < f.board_size) :
    ∀ p ∈ positions (f.set r0 c0 0).board_size,
      ((f.set r0 c0 0).is_empty p.1 p.2 = true ↔ p = (r0, c0)) := by
  intro p hp
  obtain ⟨p1, p2⟩ := p
  have hb := positions_mem _ _ hp
  constructor
  · intro he
    by_contra hne
    have hgs : (f.set r0 c0 0).get p1 p2 = f.get p1 p2 :=
      get_set_ne f r0 c0 0 p1 p2 (fun hq => hne hq.symm)
    unfold SudokuBoard.is_empty at he
    rw [hgs] at he
    exact complete_get f hcomp p1 p2 hb.1 hb.2 (by simpa using he)
  · intro he
    have e1 : p1 = r0 := (Prod.mk.injEq .. ▸ he).1
    have e2 : p2 = c0 := (Prod.mk.injEq .. ▸ he).2
    subst e1
    subst e2
    unfold SudokuBoard.is_empty
    rw [WF_get_set_self f hWF p1 p2 0 hr0 hc0]
    rfl

theorem cleared_select (fc : Bool) (f : SudokuBoard) (hWF : WF f)
    (hvs : f.is_valid_solution = true)
    (hrange : ∀ r < f.board_size, ∀ c < f.board_size, f.get r c ≤ f.board_size)
    (r0 c0 : Nat) (hr0 : r0 < f.board_size) (hc0 : c0 < f.board_size) :
    select_unassigned_variable ⟨true, fc⟩ (f.set r0 c0 0) = some (r0, c0) := by
  obtain ⟨hcomp, -⟩ := valid_solution_unitsDistinct f hWF hvs
  have hio := cleared_empty_iff f hWF hcomp r0 c0 hr0 hc0
  unfold select_unassigned_variable
  rw [if_neg (by simp)]
  rw [mrvLoop_spec_none _ _ _ (Nat.lt_succ_self _)]
  have hfind : (positions (f.set r0 c0 0).board_size).find? (fun p =>
      (f.set r0 c0 0).is_empty p.1 p.2 &&
        (((f.set r0 c0 0).get_candidates p.1 p.2).length == 0)) = none := by
    rw [List.find?_eq_none]
    intro p hp
    by_cases hpe : p = (r0, c0)
    · subst hpe
      intro hcon
      simp only [Bool.and_eq_true, beq_iff_eq] at hcon
      have hlen := hcon.2
      rw [cleared_candidates f hWF hvs hrange r0 c0 hr0 hc0] at hlen
      simp at hlen
    · intro hcon
      simp only [Bool.and_eq_true] at hcon
      exact hpe ((hio p hp).mp hcon.1)
  rw [hfind]
  have hfil : (positions (f.set r0 c0 0).board_size).filter
      (fun p => (f.set r0 c0 0).is_empty p.1 p.2) = [(r0, c0)] :=
    filter_eq_single _ _ _ (positions_nodup _)
      (mem_positions ((f.set r0 c0 0).board_size) r0 c0 hr0 hc0) hio
  rw [hfil]
  rfl

theorem cleared_countEmpty (f : SudokuBoard) (hWF : WF f)
    (hcomp : f.is_complete = true) (r0 c0 : Nat)
    (hr0 : r0 < f.board_size) (hc0 : c0 < f.board_size) :
    countEmpty (f.set r0 c0 0) = 1 := by
  unfold countEmpty
  rw [filter_eq_single _ _ _ (positions_nodup _)
    (mem_positions ((f.set r0 c0 0).board_size) r0 c0 hr0 hc0)
    (cleared_empty_iff f hWF hcomp r0 c0 hr0 hc0)]
  rfl

theorem complete_select_mrv_none (fc : Bool) (f : SudokuBoard)
    (hcomp : f.is_complete = true) :
    select_unassigned_variable ⟨true, fc⟩ f = none := by
  unfold select_unassigned_variable
  rw [if_neg (by simp)]
  rw [mrvLoop_spec_none _ _ _ (Nat.lt_succ_self _)]
  have hemp : ∀ p ∈ positions f.board_size, f.is_empty p.1 p.2 = false := by
    intro p hp
    have hb := positions_mem _ _ hp
    have hne := complete_get f hcomp p.1 p.2 hb.1 hb.2
    simp [SudokuBoard.is_empty, hne]
  have hfind : (positions f.board_size).find? (fun p =>
      f.is_empty p.1 p.2 && ((f.get_candidates p.1 p.2).length == 0)) = none := by
    rw [List.find?_eq_none]
    intro p hp
    rw [hemp p hp]
    simp
  rw [hfind]
  have hfil : (positions f.board_size).filter
      (fun p => f.is_empty p.1 p.2) = [] := by
    rw [List.filter_eq_nil_iff]
    intro p hp
    rw [hemp p hp]
    simp
  rw [hfil]

theorem backtrack_complete_step (fc : Bool) (fuel : Nat) (f : SudokuBoard)
    (hcomp : f.is_complete = true) (hvs : f.is_valid_solution = true)
    (st : SState) :
    backtrack ⟨true, fc⟩ (fuel + 1) f st = (some f, bumpNode st f) := by
  rw [backtrack, complete_select_mrv_none fc f hcomp]
  simp [hvs]

/-- C5 (amended): for a board obtained from a valid complete solution
with entries in `[1, side]` — in particular any genuine 9x9 solution —
by clearing exactly one cell, `solve` with MRV enabled reports success
with a node count of exactly 2 (one node assigns the sole empty cell's
unique candidate, a second node verifies the completed board) and a
backtrack count of 0. -/
theorem one_hole_solve (fc : Bool) (f : SudokuBoard) (r0 c0 : Nat)
    (hWF : WF f) (hvs : f.is_valid_solution = true)
    (hrange : ∀ r < f.board_size, ∀ c < f.board_size, f.get r c ≤ f.board_size)
    (hr0 : r0 < f.board_size) (hc0 : c0 < f.board_size) :
    (solve ⟨true, fc⟩ (f.set r0 c0 0)).success = true ∧
      (solve ⟨true, fc⟩ (f.set r0 c0 0)).stats.nodes_explored = 2 ∧
      (solve ⟨true, fc⟩ (f.set r0 c0 0)).stats.backtrack_count = 0 := by
  obtain ⟨hcomp, -⟩ := valid_solution_unitsDistinct f hWF hvs
  have hrun : backtrack ⟨true, fc⟩ (countEmpty (f.set r0 c0 0).copy + 1)
      (f.set r0 c0 0).copy SState.init =
      (some f, bumpNode (logSet (bumpNode SState.init (f.set r0 c0 0)) r0 c0
        (f.get r0 c0)) f) := by
    rw [copy_eq]
    rw [backtrack]
    rw [cleared_select fc f hWF hvs hrange r0 c0 hr0 hc0]
    dsimp only
    rw [cleared_candidates f hWF hvs hrange r0 c0 hr0 hc0]
    rw [if_neg (by simp)]
    rw [tryCandidates]
    rw [set_set_cancel f hWF r0 c0 hr0 hc0]
    rw [if_neg (by simp [is_consistent_of_complete f hcomp])]
    rw [show countEmpty (f.set r0 c0 0) = 0 + 1 by
      rw [cleared_countEmpty f hWF hcomp r0 c0 hr0 hc0]]
    rw [backtrack_complete_step fc 0 f hcomp hvs _]
  unfold solve
  rw [hrun]
  refine ⟨rfl, ?_, rfl⟩
  simp [bumpNode, logSet, SState.init]

/-- Witness for C5's amended theorem: the concrete 9x9 solution
`solved9` with its central cell cleared. -/
theorem one_hole_solve_witness :
    (WF solved9 ∧ solved9.is_valid_solution = true ∧
      (∀ r < solved9.board_size, ∀ c < solved9.board_size,
        solved9.get r c ≤ solved9.board_size) ∧
      4 < solved9.board_size) ∧
    (solve ⟨true, true⟩ (solved9.set 4 4 0)).success = true ∧
      (solve ⟨true, true⟩ (solved9.set 4 4 0)).stats.nodes_explored = 2 ∧
      (solve ⟨true, true⟩ (solved9.set 4 4 0)).stats.backtrack_count = 0 :=
  ⟨⟨by decide, by decide, by decide, by decide⟩,
    one_hole_solve true solved9 4 4 (by decide) (by decide) (by decide)
      (by decide) (by decide)⟩

/-- C5 counterexample: the valid 9x9 solution `solved9` with one cell
cleared solves successfully with 0 backtracks but in 2 nodes, not 1 —
the final recursive call that verifies the completed board is counted
too. -/
theorem one_hole_claim_counterexample :
    solved9.is_valid_solution = true ∧
      (solve ⟨true, true⟩ (solved9.set 4 4 0)).success = true ∧
      (solve ⟨true, true⟩ (solved9.set 4 4 0)).stats.backtrack_count = 0 ∧
      (solve ⟨true, true⟩ (solved9.set 4 4 0)).stats.nodes_explored = 2 ∧
      (solve ⟨true, true⟩ (solved9.set 4 4 0)).stats.nodes_explored ≠ 1 := by
  decide

/-! ## Heuristic-neutrality of the search result (C3)

The search succeeds exactly when the input board admits a completion
certificate: a full board agreeing with it on nonzero cells, filling the
empty cells with values in `[1, side]`, with all units cell-wise
distinct.  This characterization does not mention the heuristics, so the
success flag is the same for every flag combination. -/

theorem Certifies.board_size_eq {f b : SudokuBoard} (h : Certifies f b) :
    f.board_size = b.board_size := by
  unfold SudokuBoard.board_size
  rw [h.1]

/-- The certificate's value for an empty cell is always a candidate of
that cell. -/
theorem Certifies_get_mem_candidates (f b : SudokuBoard) (hWF : WF b)
    (hcert : Certifies f b) (r c : Nat) (hr : r < b.board_size)
    (hc : c < b.board_size) (hemp : b.get r c = 0) :
    f.get r c ∈ b.get_candidates r c := by
  obtain ⟨hfn, hWFf, hfc, hagree, hfill, hud⟩ := hcert
  have hbs : f.board_size = b.board_size := by
    unfold SudokuBoard.board_size
    rw [hfn]
  have hn : 0 < b.n := hWF.1
  obtain ⟨hv1, hv2⟩ := hfill r hr c hc hemp
  unfold SudokuBoard.get_candidates
  rw [if_neg (by simp [SudokuBoard.is_empty, hemp])]
  rw [List.mem_filter]
  constructor
  · rw [List.mem_map]
    exact ⟨f.get r c - 1, List.mem_range.mpr (by omega), by omega⟩
  · have hnr : ¬ f.get r c ∈ b.rowVals r := by
      intro hm
      obtain ⟨c2, hcl, hgc⟩ := List.mem_iff_getElem.mp hm
      rw [rowVals_getElem] at hgc
      have hcb : c2 < b.board_size := by
        rw [← rowVals_length b hWF r hr]
        exact hcl
      have hne0 : b.get r c2 ≠ 0 := by rw [hgc]; omega
      have hf2 : f.get r c2 = b.get r c2 := hagree r hr c2 hcb hne0
      have hcne : c2 ≠ c := by
        intro he
        subst he
        exact hne0 hemp
      exact hud r (by rw [hbs]; exact hr) c (by rw [hbs]; exact hc)
        r (by rw [hbs]; exact hr) c2 (by rw [hbs]; exact hcb)
        (by intro he; exact hcne ((Prod.mk.injEq .. ▸ he).2).symm)
        (Or.inl rfl) (by rw [hf2, hgc])
    have hnc : ¬ f.get r c ∈ b.colVals c := by
      intro hm
      unfold SudokuBoard.colVals at hm
      rw [List.mem_map] at hm
      obtain ⟨r2, hrm, hgr⟩ := hm
      rw [List.mem_range] at hrm
      have hne0 : b.get r2 c ≠ 0 := by rw [hgr]; omega
      have hf2 : f.get r2 c = b.get r2 c := hagree r2 hrm c hc hne0
      have hrne : r2 ≠ r := by
        intro he
        subst he
        exact hne0 hemp
      exact hud r (by rw [hbs]; exact hr) c (by rw [hbs]; exact hc)
        r2 (by rw [hbs]; exact hrm) c (by rw [hbs]; exact hc)
        (by intro he; exact hrne ((Prod.mk.injEq .. ▸ he).1).symm)
        (Or.inr (Or.inl rfl)) (by rw [hf2, hgr])
    have hnb : ¬ f.get r c ∈ b.boxVals r c := by
      intro hm
      simp only [SudokuBoard.boxVals, SudokuBoard.get_box_index] at hm
      rw [List.mem_flatMap] at hm
      obtain ⟨i, him, hm2⟩ := hm
      rw [List.mem_map] at hm2
      obtain ⟨j, hjm, hg⟩ := hm2
      rw [List.mem_range] at him hjm
      have hdr : r / b.n < b.n := by rw [Nat.div_lt_iff_lt_mul hn]; exact hr
      have hdc : c / b.n < b.n := by rw [Nat.div_lt_iff_lt_mul hn]; exact hc
      have hRb : r / b.n * b.n + i < b.board_size := cell_lt b.n _ i hdr him
      have hCb : c / b.n * b.n + j < b.board_size := cell_lt b.n _ j hdc hjm
      have hne0 : b.get (r / b.n * b.n + i) (c / b.n * b.n + j) ≠ 0 := by
        rw [hg]; omega
      have hf2 := hagree _ hRb _ hCb hne0
      have hpne : (r / b.n * b.n + i, c / b.n * b.n + j) ≠ (r, c) := by
        intro he
        have e1 : r / b.n * b.n + i = r := (Prod.mk.injEq .. ▸ he).1
        have e2 : c / b.n * b.n + j = c := (Prod.mk.injEq .. ▸ he).2
        rw [e1, e2] at hne0
        exact hne0 hemp
      refine absurd (by rw [hf2, hg] :
          f.get (r / b.n * b.n + i) (c / b.n * b.n + j) = f.get r c) ?_
      have hsu : SameUnit f.n (r / b.n * b.n + i) (c / b.n * b.n + j) r c := by
        rw [hfn]
        exact Or.inr (Or.inr ⟨by rw [corner_div b.n _ i hn him],
          by rw [corner_div b.n _ j hn hjm]⟩)
      exact hud _ (by rw [hbs]; exact hRb) _ (by rw [hbs]; exact hCb)
        r (by rw [hbs]; exact hr) c (by rw [hbs]; exact hc) hpne hsu
    simp only [Bool.and_eq_true, Bool.not_eq_true']
    exact ⟨⟨not_mem_contains_false _ _ hnr, not_mem_contains_false _ _ hnc⟩,
      not_mem_contains_false _ _ hnb⟩

/-- Assigning the certificate's value to an empty cell keeps the
certificate. -/
theorem Certifies_set (f b : SudokuBoard) (hWF : WF b) (hcert : Certifies f b)
    (r c : Nat) (hr : r < b.board_size) (hc : c < b.board_size)
    (hemp : b.get r c = 0) : Certifies f (b.set r c (f.get r c)) := by
  obtain ⟨hfn, hWFf, hfc, hagree, hfill, hud⟩ := hcert
  have hv1 := (hfill r hr c hc hemp).1
  refine ⟨hfn, hWFf, hfc, ?_, ?_, hud⟩
  · intro r2 hr2 c2 hc2 hne0
    by_cases hpe : (r2, c2) = (r, c)
    · have e1 : r2 = r := (Prod.mk.injEq .. ▸ hpe).1
      have e2 : c2 = c := (Prod.mk.injEq .. ▸ hpe).2
      rw [e1, e2, WF_get_set_self b hWF r c _ hr hc]
    · rw [get_set_ne b r c _ r2 c2 (fun he => hpe he.symm)] at hne0 ⊢
      exact hagree r2 hr2 c2 hc2 hne0
  · intro r2 hr2 c2 hc2 hemp2
    by_cases hpe : (r2, c2) = (r, c)
    · exfalso
      have e1 : r2 = r := (Prod.mk.injEq .. ▸ hpe).1
      have e2 : c2 = c := (Prod.mk.injEq .. ▸ hpe).2
      rw [e1, e2, WF_get_set_self b hWF r c _ hr hc] at hemp2
      omega
    · rw [get_set_ne b r c _ r2 c2 (fun he => hpe he.symm)] at hemp2
      exact hfill r2 hr2 c2 hc2 hemp2

/-- A certificate for the board after a trial assignment of an in-range
value is a certificate for the board before it. -/
theorem Certifies_unset (f b : SudokuBoard) (hWF : WF b) (r c num : Nat)
    (hr : r < b.board_size) (hc : c < b.board_size) (hemp : b.get r c = 0)
    (hnum1 : 1 ≤ num) (hnum2 : num ≤ b.board_size)
    (hcert : Certifies f (b.set r c num)) : Certifies f b := by
  obtain ⟨hfn, hWFf, hfc, hagree, hfill, hud⟩ := hcert
  refine ⟨hfn, hWFf, hfc, ?_, ?_, hud⟩
  · intro r2 hr2 c2 hc2 hne0
    have hpe : (r2, c2) ≠ (r, c) := by
      intro he
      have e1 : r2 = r := (Prod.mk.injEq .. ▸ he).1
      have e2 : c2 = c := (Prod.mk.injEq .. ▸ he).2
      rw [e1, e2] at hne0
      exact hne0 hemp
    have hset : (b.set r c num).get r2 c2 = b.get r2 c2 :=
      get_set_ne b r c num r2 c2 (fun he => hpe he.symm)
    have h2 := hagree r2 hr2 c2 hc2 (by rw [hset]; exact hne0)
    rw [hset] at h2
    exact h2
  · intro r2 hr2 c2 hc2 hemp2
    by_cases hpe : (r2, c2) = (r, c)
    · have e1 : r2 = r := (Prod.mk.injEq .. ▸ hpe).1
      have e2 : c2 = c := (Prod.mk.injEq .. ▸ hpe).2
      rw [e1, e2]
      have hg : (b.set r c num).get r c = num :=
        WF_get_set_self b hWF r c num hr hc
      have h2 := hagree r hr c hc (by rw [hg]; omega)
      rw [hg] at h2
      rw [h2]
      exact ⟨hnum1, hnum2⟩
    · have hset : (b.set r c num).get r2 c2 = b.get r2 c2 :=
        get_set_ne b r c num r2 c2 (fun he => hpe he.symm)
      exact hfill r2 hr2 c2 hc2 (by rw [hset]; exact hemp2)

/-- A solvable board passes the forward-checking consistency test: every
empty cell keeps its certificate value as a candidate. -/
theorem Solvable_consistent (b : SudokuBoard) (hWF : WF b) (hS : Solvable b) :
    is_consistent b = true := by
  obtain ⟨f, hcert⟩ := hS
  unfold is_consistent
  rw [List.all_eq_true]
  intro p hp
  have hb := positions_mem _ _ hp
  by_cases hemp : b.is_empty p.1 p.2 = true
  · have hg0 : b.get p.1 p.2 = 0 := by
      simpa [SudokuBoard.is_empty] using hemp
    have hmem := Certifies_get_mem_candidates f b hWF hcert p.1 p.2 hb.1 hb.2 hg0
    have hlen : (b.get_candidates p.1 p.2).length ≠ 0 := by
      intro h0
      rw [List.length_eq_zero] at h0
      rw [h0] at hmem
      cases hmem
    simp [hlen]
  · have hef : b.is_empty p.1 p.2 = false := by
      cases h2 : b.is_empty p.1 p.2
      · rfl
      · exact absurd h2 hemp
    simp [hef]

theorem filter_length_flip {α : Type} [DecidableEq α] (p q : α → Bool) (x : α) :
    ∀ l : List α, l.Nodup → x ∈ l → p x = true → q x = false →
      (∀ y ∈ l, y ≠ x → p y = q y) →
      (l.filter q).length + 1 = (l.filter p).length := by
  intro l
  induction l with
  | nil => intro _ hx; cases hx
  | cons a rest ih =>
    intro hnd hx hp hq hcong
    rw [List.filter_cons, List.filter_cons]
    by_cases hax : a = x
    · subst hax
      rw [if_pos hp, if_neg (by rw [hq]; simp)]
      have hfeq : rest.filter p = rest.filter q := by
        apply List.filter_congr
        intro y hy
        exact hcong y (List.mem_cons_of_mem _ hy)
          (fun he => (List.nodup_cons.mp hnd).1 (he ▸ hy))
      rw [hfeq]
      simp
    · have hxrest := (List.mem_cons.mp hx).resolve_left fun he => hax he.symm
      have hpa : p a = q a := hcong a (List.mem_cons_self _ _) hax
      have hrec := ih (List.nodup_cons.mp hnd).2 hxrest hp hq
        (fun y hy hne => hcong y (List.mem_cons_of_mem _ hy) hne)
      by_cases hqa : q a = true
      · rw [if_pos hqa, if_pos (by rw [hpa]; exact hqa)]
        simp only [List.length_cons]
        omega
      · have hqa2 : q a = false := by
          cases h2 : q a
          · rfl
          · exact absurd h2 hqa
        rw [if_neg (by rw [hqa2]; simp), if_neg (by rw [hpa, hqa2]; simp)]
        exact hrec

/-- Filling an empty cell with a nonzero value decreases the number of
empty cells by one. -/
theorem countEmpty_set (b : SudokuBoard) (hWF : WF b) (r c : Nat)
    (hr : r < b.board_size) (hc : c < b.board_size)
    (hemp : b.get r c = 0) (num : Nat) (hnum : num ≠ 0) :
    countEmpty (b.set r c num) + 1 = countEmpty b := by
  unfold countEmpty
  rw [show (b.set r c num).board_size = b.board_size from rfl]
  apply filter_length_flip (fun p => b.is_empty p.1 p.2)
    (fun p => (b.set r c num).is_empty p.1 p.2) (r, c) (positions b.board_size)
    (positions_nodup _) (mem_positions _ _ _ hr hc)
  · simp [SudokuBoard.is_empty, hemp]
  · simp [SudokuBoard.is_empty, WF_get_set_self b hWF r c num hr hc, hnum]
  · intro y hy hne
    obtain ⟨y1, y2⟩ := y
    have hpe : (r, c) ≠ (y1, y2) := fun he => hne he.symm
    simp [SudokuBoard.is_empty, get_set_ne b r c num y1 y2 hpe]

theorem firstEmpty_isSome (b : SudokuBoard) :
    ∀ l, (∃ p ∈ l, b.is_empty p.1 p.2 = true) →
      ∃ q, firstEmpty b l = some q := by
  intro l
  induction l with
  | nil => rintro ⟨p, hp, -⟩; cases hp
  | cons a rest ih =>
    rintro ⟨p, hp, he⟩
    rw [firstEmpty]
    split
    · exact ⟨a, rfl⟩
    next hna =>
      rcases List.mem_cons.mp hp with rfl | hrest
      · exact absurd he hna
      · exact ih ⟨p, hrest, he⟩

theorem select_isSome (cfg : Config) (b : SudokuBoard)
    (h : ∃ p ∈ positions b.board_size, b.is_empty p.1 p.2 = true) :
    ∃ q, select_unassigned_variable cfg b = some q := by
  unfold select_unassigned_variable
  split
  · exact firstEmpty_isSome b _ h
  · rw [mrvLoop_spec_none _ _ _ (Nat.lt_succ_self _)]
    split
    · exact ⟨_, rfl⟩
    · split
      next hfil =>
        exfalso
        obtain ⟨p, hp, he⟩ := h
        have hmem : p ∈ (positions b.board_size).filter
            fun q => b.is_empty q.1 q.2 :=
          List.mem_filter.mpr ⟨hp, he⟩
        rw [hfil] at hmem
        cases hmem
      · exact ⟨_, rfl⟩

theorem select_none_complete (cfg : Config) (b : SudokuBoard)
    (h : select_unassigned_variable cfg b = none) : b.is_complete = true := by
  apply get_complete
  intro r hr c hc hg0
  have hex : ∃ p ∈ positions b.board_size, b.is_empty p.1 p.2 = true :=
    ⟨(r, c), mem_positions _ _ _ hr hc, by simp [SudokuBoard.is_empty, hg0]⟩
  obtain ⟨q, hq⟩ := select_isSome cfg b hex
  rw [h] at hq
  cases hq

theorem Solvable_of_valid (b : SudokuBoard) (hWF : WF b)
    (h : b.is_valid_solution = true) : Solvable b := by
  obtain ⟨hcomp, hud⟩ := valid_solution_unitsDistinct b hWF h
  exact ⟨b, rfl, hWF, hcomp, fun r hr c hc _ => rfl,
    fun r hr c hc h0 => absurd h0 (complete_get b hcomp r c hr hc), hud⟩

theorem Solvable_complete_valid (b : SudokuBoard) (hWF : WF b)
    (hcomp : b.is_complete = true) (hS : Solvable b) :
    b.is_valid_solution = true := by
  obtain ⟨f, hfn, hWFf, hfc, hagree, hfill, hud⟩ := hS
  apply unitsDistinct_valid_solution b hWF hcomp
  intro r hr c hc r2 hr2 c2 hc2 hne hsu
  have hbs : f.board_size = b.board_size := by
    unfold SudokuBoard.board_size
    rw [hfn]
  have hg1 : f.get r c = b.get r c :=
    hagree r hr c hc (complete_get b hcomp r c hr hc)
  have hg2 : f.get r2 c2 = b.get r2 c2 :=
    hagree r2 hr2 c2 hc2 (complete_get b hcomp r2 c2 hr2 hc2)
  intro hEq
  exact hud r (by rw [hbs]; exact hr) c (by rw [hbs]; exact hc)
    r2 (by rw [hbs]; exact hr2) c2 (by rw [hbs]; exact hc2) hne
    (by rw [hfn]; exact hsu) (by rw [hg1, hg2]; exact hEq)

theorem tryCandidates_solvable (cfg : Config)
    (recur : SudokuBoard → SState → Option SudokuBoard × SState)
    (hrec : ∀ b' st', WF b' → (recur b' st').1.isSome = true → Solvable b')
    (b : SudokuBoard) (row col : Nat) (hWF : WF b)
    (hrow : row < b.board_size) (hcol : col < b.board_size)
    (hemp : b.get row col = 0) :
    ∀ cands, (∀ v ∈ cands, v ∈ b.get_candidates row col) →
      ∀ st, (tryCandidates cfg recur b row col cands st).1.isSome = true →
        Solvable b := by
  intro cands
  induction cands with
  | nil => intro _ st h; simp [tryCandidates] at h
  | cons num rest ih =>
    intro hsub st h
    rw [tryCandidates] at h
    split at h
    · exact ih (fun v hv => hsub v (List.mem_cons_of_mem _ hv)) _ h
    · split at h
      next sol2 st2 heq =>
        have hS1 : Solvable (b.set row col num) :=
          hrec _ _ (WF_set b hWF row col num hrow) (by rw [heq]; rfl)
        obtain ⟨f, hcert⟩ := hS1
        obtain ⟨-, h1, h2, -, -, -⟩ := mem_candidates b row col num
          (hsub num (List.mem_cons_self _ _))
        exact ⟨f, Certifies_unset f b hWF row col num hrow hcol hemp h1 h2 hcert⟩
      next st2 heq =>
        exact ih (fun v hv => hsub v (List.mem_cons_of_mem _ hv)) _ h

theorem backtrack_solvable (cfg : Config) :
    ∀ fuel b st, WF b → (backtrack cfg fuel b st).1.isSome = true →
      Solvable b := by
  intro fuel
  induction fuel with
  | zero => intro b st _ h; simp [backtrack] at h
  | succ fuel ih =>
    intro b st hWF h
    rw [backtrack] at h
    split at h
    next hsel =>
      split at h
      next hvalid => exact Solvable_of_valid b hWF hvalid
      next => simp at h
    next row col hsel =>
      split at h
      · simp at h
      · obtain ⟨hr, hc, he⟩ := select_some cfg b row col hsel
        exact tryCandidates_solvable cfg (backtrack cfg fuel)
          (fun b' st' => ih b' st') b row col hWF hr hc
          (by simpa [SudokuBoard.is_empty] using he) _ (fun v hv => hv) _ h

theorem tryCandidates_succeeds (cfg : Config)
    (recur : SudokuBoard → SState → Option SudokuBoard × SState)
    (b : SudokuBoard) (row col : Nat) (hWF : WF b)
    (hrow : row < b.board_size)
    (hrec : ∀ num st', num ∈ b.get_candidates row col →
      Solvable (b.set row col num) →
      (recur (b.set row col num) st').1.isSome = true) :
    ∀ cands, (∀ v ∈ cands, v ∈ b.get_candidates row col) →
      (∃ num ∈ cands, Solvable (b.set row col num)) →
      ∀ st, (tryCandidates cfg recur b row col cands st).1.isSome = true := by
  intro cands
  induction cands with
  | nil =>
    rintro _ ⟨num, hm, -⟩
    cases hm
  | cons num rest ih =>
    rintro hsub ⟨w, hwm, hwS⟩ st
    rw [tryCandidates]
    split
    next hfc =>
      rcases List.mem_cons.mp hwm with rfl | hwrest
      · exfalso
        have hcons := Solvable_consistent (b.set row col w)
          (WF_set b hWF row col w hrow) hwS
        rw [hcons] at hfc
        simp at hfc
      · exact ih (fun v hv => hsub v (List.mem_cons_of_mem _ hv))
          ⟨w, hwrest, hwS⟩ _
    next =>
      split
      next sol2 st2 heq => rfl
      next st2 heq =>
        rcases List.mem_cons.mp hwm with rfl | hwrest
        · exfalso
          have hsucc := hrec w (logSet st row col w)
            (hsub w (List.mem_cons_self _ _)) hwS
          rw [heq] at hsucc
          simp at hsucc
        · exact ih (fun v hv => hsub v (List.mem_cons_of_mem _ hv))
            ⟨w, hwrest, hwS⟩ _

theorem backtrack_succeeds (cfg : Config) :
    ∀ fuel b st, WF b → countEmpty b < fuel → Solvable b →
      (backtrack cfg fuel b st).1.isSome = true := by
  intro fuel
  induction fuel with
  | zero => intro b st _ hlt _; omega
  | succ fuel ih =>
    intro b st hWF hlt hS
    rw [backtrack]
    split
    next hsel =>
      have hcomp := select_none_complete cfg b hsel
      simp [Solvable_complete_valid b hWF hcomp hS]
    next row col hsel =>
      obtain ⟨hr, hc, he⟩ := select_some cfg b row col hsel
      have hemp : b.get row col = 0 := by
        simpa [SudokuBoard.is_empty] using he
      obtain ⟨f, hcert⟩ := hS
      have hfmem := Certifies_get_mem_candidates f b hWF hcert row col hr hc hemp
      split
      next hzero =>
        exfalso
        rw [List.length_eq_zero] at hzero
        rw [hzero] at hfmem
        cases hfmem
      next hzero =>
        apply tryCandidates_succeeds cfg (backtrack cfg fuel) b row col hWF hr
        · intro num st' hnum hSnum
          apply ih (b.set row col num) st' (WF_set b hWF row col num hr)
          · have hnz : num ≠ 0 := by
              obtain ⟨-, h1, -, -, -, -⟩ := mem_candidates b row col num hnum
              omega
            have := countEmpty_set b hWF row col hr hc hemp num hnz
            omega
          · exact hSnum
        · exact fun v hv => hv
        · exact ⟨f.get row col, hfmem,
            ⟨f, Certifies_set f b hWF hcert row col hr hc hemp⟩⟩

/-- The search result depends only on the existence of a completion
certificate, never on the heuristic flags. -/
theorem solve_success_iff_solvable (cfg : Config) (b : SudokuBoard)
    (hWF : WF b) : (solve cfg b).success = true ↔ Solvable b := by
  unfold solve
  split
  next sol2 st2 heq =>
    constructor
    · intro _
      have hs := backtrack_solvable cfg (countEmpty b.copy + 1) b.copy
        SState.init (by rw [copy_eq]; exact hWF) (by rw [heq]; rfl)
      rw [copy_eq] at hs
      exact hs
    · intro _
      rfl
  next st2 heq =>
    constructor
    · intro h
      simp at h
    · intro hS
      exfalso
      have hs := backtrack_succeeds cfg (countEmpty b.copy + 1) b.copy
        SState.init (by rw [copy_eq]; exact hWF) (Nat.lt_succ_self _)
        (by rw [copy_eq]; exact hS)
      rw [heq] at hs
      simp at hs

/-- C3: for every well-formed input board, whether `solve` reports
success is identical across all combinations of the MRV and
forward-checking flags — the heuristics change only the work done, never
the existence of a returned solution. -/
theorem heuristic_neutrality (b : SudokuBoard) (hWF : WF b)
    (cfg1 cfg2 : Config) :
    (solve cfg1 b).success = (solve cfg2 b).success := by
  have h1 := solve_success_iff_solvable cfg1 b hWF
  have h2 := solve_success_iff_solvable cfg2 b hWF
  by_cases hS : Solvable b
  · rw [h1.mpr hS, h2.mpr hS]
  · cases hc1 : (solve cfg1 b).success with
    | false =>
      cases hc2 : (solve cfg2 b).success with
      | false => rfl
      | true => exact absurd (h2.mp hc2) hS
    | true => exact absurd (h1.mp hc1) hS

/-- Witness for C3: the one-hole 4x4 board under two of the four flag
combinations (the theorem instance covers any pair). -/
theorem heuristic_neutrality_witness :
    WF oneHole4 ∧
      (solve ⟨true, true⟩ oneHole4).success =
        (solve ⟨false, false⟩ oneHole4).success :=
  ⟨by decide, heuristic_neutrality oneHole4 (by decide) ⟨true, true⟩ ⟨false, false⟩⟩

end Sudoku
